import Mathlib

/-!
Verification of the provenance-hash engine of `snakemake/caching/hash.py`
(`ProvenanceHashMap.get_provenance_hash` / `_get_provenance_hash`).

The development shallowly embeds the hashing algorithm:

* Python `str.encode()` (UTF-8) is embedded as `strBytes`, a from-scratch
  UTF-8 encoder over the characters of the string.
* The `hashlib.sha256()` accumulator is embedded as the byte sequence fed
  to it via `update`; `hexdigest` is modelled as an injective hex encoding
  of that byte stream (the ideal-hash abstraction: the properties under
  study concern which bytes are fed and in what order, and the digest is
  treated as collision-free on distinct byte streams).
* `json.dumps(value, sort_keys=True)` is embedded as `dumps` over `PyObj`,
  a model of the JSON-serializable Python values (plus an `unserializable`
  constructor for values on which `json.dumps` raises `TypeError`).
* The job/graph collaborators (`job.params`, `job.input`, `job.output`,
  `job.dag.dependencies`, the workflow flags, resolved script sources) are
  embedded per their consumed interface; jobs are identified by natural
  numbers (object identity), and dict iteration orders are explicit lists.
* Recursion is bounded by explicit fuel (Python's recursion limit); the
  memo dict `self._hashes` is an association list threaded through the
  computation, retained also on error (the Python dict keeps entries
  written by completed recursive calls when an exception propagates).
-/

namespace SnakemakeHash

/-! ## Bytes: UTF-8 encoding of strings (models Python `str.encode()`) -/

/-- UTF-8 encoding of a single character (code point), as byte values. -/
def utf8Bytes (c : Char) : List Nat :=
  let n := c.toNat
  if n < 0x80 then [n]
  else if n < 0x800 then [0xC0 + n / 64, 0x80 + n % 64]
  else if n < 0x10000 then [0xE0 + n / 4096, 0x80 + n / 64 % 64, 0x80 + n % 64]
  else [0xF0 + n / 262144, 0x80 + n / 4096 % 64, 0x80 + n / 64 % 64, 0x80 + n % 64]

/-- Models Python `s.encode()`: the UTF-8 bytes of a string. -/
def strBytes (s : String) : List Nat :=
  s.data.flatMap utf8Bytes

/-- Splits the leading UTF-8 sequence off a byte stream, returning the decoded
code point and the remaining bytes; used only to prove injectivity of the
encoding. -/
def splitChar (b : Nat) (rest : List Nat) : Option (Nat × List Nat) :=
  if b < 0x80 then some (b, rest)
  else if b < 0xE0 then
    match rest with
    | b1 :: rest' => some ((b - 0xC0) * 64 + (b1 - 0x80), rest')
    | [] => none
  else if b < 0xF0 then
    match rest with
    | b1 :: b2 :: rest' => some ((b - 0xE0) * 4096 + (b1 - 0x80) * 64 + (b2 - 0x80), rest')
    | _ => none
  else
    match rest with
    | b1 :: b2 :: b3 :: rest' =>
        some ((b - 0xF0) * 262144 + (b1 - 0x80) * 4096 + (b2 - 0x80) * 64 + (b3 - 0x80), rest')
    | _ => none

/-- First decoded character of a byte stream, with the remaining bytes. -/
def utf8Split : List Nat → Option (Nat × List Nat)
  | [] => none
  | b :: rest => splitChar b rest

theorem char_toNat_lt (c : Char) : c.toNat < 1114112 := by
  rcases c.valid with h | ⟨h1, h2⟩ <;> simp [Char.toNat] <;> omega

theorem utf8Bytes_eq_one (c : Char) (h1 : c.toNat < 0x80) :
    utf8Bytes c = [c.toNat] := by
  unfold utf8Bytes; rw [if_pos h1]

theorem utf8Bytes_eq_two (c : Char) (h1 : ¬ c.toNat < 0x80) (h2 : c.toNat < 0x800) :
    utf8Bytes c = [0xC0 + c.toNat / 64, 0x80 + c.toNat % 64] := by
  unfold utf8Bytes; rw [if_neg h1, if_pos h2]

theorem utf8Bytes_eq_three (c : Char) (h1 : ¬ c.toNat < 0x80) (h2 : ¬ c.toNat < 0x800)
    (h3 : c.toNat < 0x10000) :
    utf8Bytes c = [0xE0 + c.toNat / 4096, 0x80 + c.toNat / 64 % 64, 0x80 + c.toNat % 64] := by
  unfold utf8Bytes; rw [if_neg h1, if_neg h2, if_pos h3]

theorem utf8Bytes_eq_four (c : Char) (h1 : ¬ c.toNat < 0x80) (h2 : ¬ c.toNat < 0x800)
    (h3 : ¬ c.toNat < 0x10000) :
    utf8Bytes c = [0xF0 + c.toNat / 262144, 0x80 + c.toNat / 4096 % 64,
      0x80 + c.toNat / 64 % 64, 0x80 + c.toNat % 64] := by
  unfold utf8Bytes; rw [if_neg h1, if_neg h2, if_neg h3]

theorem utf8Split_bytes (c : Char) (bs : List Nat) :
    utf8Split (utf8Bytes c ++ bs) = some (c.toNat, bs) := by
  have hlt := char_toNat_lt c
  by_cases h1 : c.toNat < 0x80
  · rw [utf8Bytes_eq_one c h1, List.cons_append, List.nil_append]
    show splitChar c.toNat bs = _
    unfold splitChar
    rw [if_pos h1]
  · by_cases h2 : c.toNat < 0x800
    · rw [utf8Bytes_eq_two c h1 h2, List.cons_append, List.cons_append, List.nil_append]
      show splitChar (0xC0 + c.toNat / 64) ((0x80 + c.toNat % 64) :: bs) = _
      unfold splitChar
      rw [if_neg (by omega), if_pos (by omega)]
      have harith : (0xC0 + c.toNat / 64 - 0xC0) * 64 + (0x80 + c.toNat % 64 - 0x80)
          = c.toNat := by omega
      simp
      omega
    · by_cases h3 : c.toNat < 0x10000
      · rw [utf8Bytes_eq_three c h1 h2 h3, List.cons_append, List.cons_append,
          List.cons_append, List.nil_append]
        show splitChar (0xE0 + c.toNat / 4096)
          ((0x80 + c.toNat / 64 % 64) :: (0x80 + c.toNat % 64) :: bs) = _
        unfold splitChar
        rw [if_neg (by omega), if_neg (by omega), if_pos (by omega)]
        have harith : (0xE0 + c.toNat / 4096 - 0xE0) * 4096
            + (0x80 + c.toNat / 64 % 64 - 0x80) * 64 + (0x80 + c.toNat % 64 - 0x80)
            = c.toNat := by omega
        simp
        omega
      · rw [utf8Bytes_eq_four c h1 h2 h3, List.cons_append, List.cons_append,
          List.cons_append, List.cons_append, List.nil_append]
        show splitChar (0xF0 + c.toNat / 262144)
          ((0x80 + c.toNat / 4096 % 64) :: (0x80 + c.toNat / 64 % 64) :: (0x80 + c.toNat % 64) :: bs)
          = _
        unfold splitChar
        rw [if_neg (by omega), if_neg (by omega), if_neg (by omega)]
        have harith : (0xF0 + c.toNat / 262144 - 0xF0) * 262144
            + (0x80 + c.toNat / 4096 % 64 - 0x80) * 4096
            + (0x80 + c.toNat / 64 % 64 - 0x80) * 64 + (0x80 + c.toNat % 64 - 0x80)
            = c.toNat := by omega
        simp
        omega

theorem utf8Bytes_ne_nil (c : Char) : utf8Bytes c ≠ [] := by
  unfold utf8Bytes
  by_cases h1 : c.toNat < 0x80
  · rw [if_pos h1]; simp
  · by_cases h2 : c.toNat < 0x800
    · rw [if_neg h1, if_pos h2]; simp
    · by_cases h3 : c.toNat < 0x10000
      · rw [if_neg h1, if_neg h2, if_pos h3]; simp
      · rw [if_neg h1, if_neg h2, if_neg h3]; simp

theorem char_toNat_injective (a b : Char) (h : a.toNat = b.toNat) : a = b := by
  have := congrArg Char.ofNat h
  simpa [Char.ofNat_toNat] using this

theorem flatMap_utf8Bytes_inj :
    ∀ cs1 cs2 : List Char, cs1.flatMap utf8Bytes = cs2.flatMap utf8Bytes → cs1 = cs2 := by
  intro cs1
  induction cs1 with
  | nil =>
      intro cs2 h
      cases cs2 with
      | nil => rfl
      | cons c t =>
          exfalso
          rw [List.flatMap_nil, List.flatMap_cons] at h
          rcases List.append_eq_nil.mp h.symm with ⟨h1, _⟩
          exact utf8Bytes_ne_nil c h1
  | cons c t ih =>
      intro cs2 h
      cases cs2 with
      | nil =>
          exfalso
          rw [List.flatMap_cons, List.flatMap_nil] at h
          rcases List.append_eq_nil.mp h with ⟨h1, _⟩
          exact utf8Bytes_ne_nil c h1
      | cons c2 t2 =>
          rw [List.flatMap_cons, List.flatMap_cons] at h
          have hs1 := utf8Split_bytes c (t.flatMap utf8Bytes)
          have hs2 := utf8Split_bytes c2 (t2.flatMap utf8Bytes)
          rw [h] at hs1
          rw [hs2] at hs1
          have hc : c2.toNat = c.toNat := by
            exact congrArg Prod.fst ((Option.some.injEq _ _).mp hs1)
          have ht : t2.flatMap utf8Bytes = t.flatMap utf8Bytes := by
            exact congrArg Prod.snd ((Option.some.injEq _ _).mp hs1)
          rw [char_toNat_injective c2 c hc, ih t2 ht.symm]

theorem strBytes_injective : Function.Injective strBytes := by
  intro s1 s2 h
  exact String.ext (flatMap_utf8Bytes_inj s1.data s2.data h)

/-- Every byte produced by the UTF-8 encoder is below 256. -/
theorem utf8Bytes_lt (c : Char) : ∀ b ∈ utf8Bytes c, b < 256 := by
  have hlt := char_toNat_lt c
  intro b hb
  unfold utf8Bytes at hb
  by_cases h1 : c.toNat < 0x80
  · simp [h1] at hb; omega
  · by_cases h2 : c.toNat < 0x800
    · simp [h1, h2] at hb; rcases hb with hb | hb <;> omega
    · by_cases h3 : c.toNat < 0x10000
      · simp [h1, h2, h3] at hb; rcases hb with hb | hb | hb <;> omega
      · simp [h1, h2, h3] at hb; rcases hb with hb | hb | hb | hb <;> omega

theorem strBytes_lt (s : String) : ∀ b ∈ strBytes s, b < 256 := by
  intro b hb
  simp only [strBytes, List.mem_flatMap] at hb
  obtain ⟨c, _, hc⟩ := hb
  exact utf8Bytes_lt c b hc

/-! ## The digest: `hashlib.sha256` accumulator and `hexdigest`

The accumulator state is the list of bytes fed by the successive `update`
calls; `hexdigest` renders it as a hex string.  On byte streams (all values
below 256) it is injective, which is the ideal-hash abstraction of the
collision-free cryptographic digest. -/

/-- Lowercase hex digit. -/
def hexChar (n : Nat) : Char :=
  if n < 10 then Char.ofNat (48 + n) else Char.ofNat (87 + n)

/-- Models `hashlib` `hexdigest()` on the accumulated byte stream. -/
def hexdigest (msg : List Nat) : String :=
  String.mk (msg.flatMap (fun b => [hexChar (b / 16), hexChar (b % 16)]))

theorem hexChar_inj : ∀ a < 16, ∀ b < 16, hexChar a = hexChar b → a = b := by decide

theorem hexdigest_inj (m1 m2 : List Nat) (h1 : ∀ b ∈ m1, b < 256) (h2 : ∀ b ∈ m2, b < 256)
    (heq : hexdigest m1 = hexdigest m2) : m1 = m2 := by
  have hflat : m1.flatMap (fun b => [hexChar (b / 16), hexChar (b % 16)])
      = m2.flatMap (fun b => [hexChar (b / 16), hexChar (b % 16)]) := by
    have := congrArg String.data heq
    simpa [hexdigest] using this
  clear heq
  induction m1 generalizing m2 with
  | nil =>
      cases m2 with
      | nil => rfl
      | cons b t => simp [List.flatMap] at hflat
  | cons a t1 ih =>
      cases m2 with
      | nil => simp [List.flatMap] at hflat
      | cons b t2 =>
          simp only [List.flatMap_cons, List.cons_append, List.nil_append,
            List.cons.injEq] at hflat
          obtain ⟨hc1, hc2, ht⟩ := hflat
          have ha := h1 a (by simp)
          have hb := h2 b (by simp)
          have e1 : a / 16 = b / 16 :=
            hexChar_inj _ (by omega) _ (by omega) hc1
          have e2 : a % 16 = b % 16 :=
            hexChar_inj _ (by omega) _ (by omega) hc2
          have hab : a = b := by omega
          subst hab
          have htail := ih t2 (fun x hx => h1 x (List.mem_cons_of_mem _ hx))
            (fun x hx => h2 x (List.mem_cons_of_mem _ hx)) ht
          rw [htail]

/-! ## Sorting (models Python's `sorted`)

Python compares strings lexicographically by code point; `strLe` is that
order as a Boolean relation (kernel-computable, unlike the `LinearOrder`
instances).  `sortBy le` is insertion sort by a Boolean relation.  Python's
`sorted` is a stable sort; on lists whose elements are determined by their
sort keys (the case used below: mapping entries with distinct keys, and
plain strings) any sort coincides with it. -/

/-- Lexicographic order on code-point sequences, as Python compares `str`. -/
def charsLe : List Char → List Char → Bool
  | [], _ => true
  | _ :: _, [] => false
  | a :: as, b :: bs =>
    if a.toNat < b.toNat then true
    else if b.toNat < a.toNat then false
    else charsLe as bs

/-- Python's `<=` on strings. -/
def strLe (s1 s2 : String) : Bool := charsLe s1.data s2.data

theorem charsLe_total : ∀ l1 l2 : List Char, charsLe l1 l2 = true ∨ charsLe l2 l1 = true := by
  intro l1
  induction l1 with
  | nil => intro l2; left; rfl
  | cons a as ih =>
      intro l2
      cases l2 with
      | nil => right; rfl
      | cons b bs =>
          show (if a.toNat < b.toNat then true
              else if b.toNat < a.toNat then false else charsLe as bs) = true ∨
            (if b.toNat < a.toNat then true
              else if a.toNat < b.toNat then false else charsLe bs as) = true
          by_cases h1 : a.toNat < b.toNat
          · left; rw [if_pos h1]
          · by_cases h2 : b.toNat < a.toNat
            · right; rw [if_pos h2]
            · rw [if_neg h1, if_neg h2, if_neg h2, if_neg h1]
              exact ih bs

theorem charsLe_antisymm : ∀ l1 l2 : List Char,
    charsLe l1 l2 = true → charsLe l2 l1 = true → l1 = l2 := by
  intro l1
  induction l1 with
  | nil =>
      intro l2 _ h2
      cases l2 with
      | nil => rfl
      | cons b bs => cases h2
  | cons a as ih =>
      intro l2 h1 h2
      cases l2 with
      | nil => cases h1
      | cons b bs =>
          rw [show charsLe (a :: as) (b :: bs)
              = (if a.toNat < b.toNat then true
                else if b.toNat < a.toNat then false else charsLe as bs) from rfl] at h1
          rw [show charsLe (b :: bs) (a :: as)
              = (if b.toNat < a.toNat then true
                else if a.toNat < b.toNat then false else charsLe bs as) from rfl] at h2
          by_cases hab : a.toNat < b.toNat
          · rw [if_neg (by omega), if_pos hab] at h2; cases h2
          · by_cases hba : b.toNat < a.toNat
            · rw [if_neg hab, if_pos hba] at h1; cases h1
            · rw [if_neg hab, if_neg hba] at h1
              rw [if_neg hba, if_neg hab] at h2
              rw [char_toNat_injective a b (by omega), ih bs h1 h2]

theorem charsLe_trans : ∀ l1 l2 l3 : List Char,
    charsLe l1 l2 = true → charsLe l2 l3 = true → charsLe l1 l3 = true := by
  intro l1
  induction l1 with
  | nil => intro l2 l3 _ _; rfl
  | cons a as ih =>
      intro l2 l3 h1 h2
      cases l2 with
      | nil => cases h1
      | cons b bs =>
          cases l3 with
          | nil => cases h2
          | cons c cs =>
              rw [show charsLe (a :: as) (b :: bs)
                  = (if a.toNat < b.toNat then true
                    else if b.toNat < a.toNat then false else charsLe as bs) from rfl] at h1
              rw [show charsLe (b :: bs) (c :: cs)
                  = (if b.toNat < c.toNat then true
                    else if c.toNat < b.toNat then false else charsLe bs cs) from rfl] at h2
              show (if a.toNat < c.toNat then true
                  else if c.toNat < a.toNat then false else charsLe as cs) = true
              by_cases hab : a.toNat < b.toNat
              · by_cases hbc : b.toNat < c.toNat
                · rw [if_pos (by omega)]
                · by_cases hcb : c.toNat < b.toNat
                  · rw [if_neg hbc, if_pos hcb] at h2; cases h2
                  · rw [if_pos (by omega)]
              · by_cases hba : b.toNat < a.toNat
                · rw [if_neg hab, if_pos hba] at h1; cases h1
                · rw [if_neg hab, if_neg hba] at h1
                  by_cases hbc : b.toNat < c.toNat
                  · rw [if_pos (by omega)]
                  · by_cases hcb : c.toNat < b.toNat
                    · rw [if_neg hbc, if_pos hcb] at h2; cases h2
                    · rw [if_neg hbc, if_neg hcb] at h2
                      rw [if_neg (by omega), if_neg (by omega)]
                      exact ih bs cs h1 h2

theorem strLe_total (s1 s2 : String) : strLe s1 s2 = true ∨ strLe s2 s1 = true :=
  charsLe_total s1.data s2.data

theorem strLe_antisymm (s1 s2 : String) (h1 : strLe s1 s2 = true) (h2 : strLe s2 s1 = true) :
    s1 = s2 :=
  String.ext (charsLe_antisymm s1.data s2.data h1 h2)

theorem strLe_trans (s1 s2 s3 : String) (h1 : strLe s1 s2 = true) (h2 : strLe s2 s3 = true) :
    strLe s1 s3 = true :=
  charsLe_trans s1.data s2.data s3.data h1 h2

/-- Comparison of mapping entries by their (string) key, as `sorted` on the
pairs of a mapping orders them. -/
def keyLe {γ : Type} (p q : String × γ) : Bool := strLe p.1 q.1

variable {α : Type}

def insertSorted (le : α → α → Bool) (a : α) : List α → List α
  | [] => [a]
  | b :: bs => if le a b then a :: b :: bs else b :: insertSorted le a bs

/-- Insertion sort by a Boolean relation (models Python's `sorted`). -/
def sortBy (le : α → α → Bool) : List α → List α
  | [] => []
  | a :: as => insertSorted le a (sortBy le as)

theorem insertSorted_perm (le : α → α → Bool) (a : α) :
    ∀ l : List α, (insertSorted le a l).Perm (a :: l) := by
  intro l
  induction l with
  | nil => simp [insertSorted]
  | cons b bs ih =>
      unfold insertSorted
      by_cases h : le a b
      · rw [if_pos h]
      · rw [if_neg h]
        exact (ih.cons b).trans (List.Perm.swap a b bs)

theorem sortBy_perm (le : α → α → Bool) : ∀ l : List α, (sortBy le l).Perm l := by
  intro l
  induction l with
  | nil => simp [sortBy]
  | cons a as ih =>
      unfold sortBy
      exact (insertSorted_perm le a (sortBy le as)).trans (ih.cons a)

theorem mem_insertSorted (le : α → α → Bool) (a x : α) (l : List α) :
    x ∈ insertSorted le a l ↔ x = a ∨ x ∈ l := by
  rw [(insertSorted_perm le a l).mem_iff]
  simp

theorem insertSorted_pairwise (le : α → α → Bool)
    (htot : ∀ x y, le x y = true ∨ le y x = true)
    (htrans : ∀ x y z, le x y = true → le y z = true → le x z = true)
    (a : α) (l : List α) (h : l.Pairwise (fun x y => le x y = true)) :
    (insertSorted le a l).Pairwise (fun x y => le x y = true) := by
  induction l with
  | nil => simp [insertSorted]
  | cons b bs ih =>
      unfold insertSorted
      rcases List.pairwise_cons.mp h with ⟨hb, hbs⟩
      by_cases hab : le a b
      · rw [if_pos hab]
        refine List.pairwise_cons.mpr ⟨?_, h⟩
        intro x hx
        rcases List.mem_cons.mp hx with hx | hx
        · exact hx ▸ hab
        · exact htrans a b x hab (hb x hx)
      · rw [if_neg hab]
        refine List.pairwise_cons.mpr ⟨?_, ih hbs⟩
        intro x hx
        rcases (mem_insertSorted le a x bs).mp hx with hx | hx
        · rw [hx]
          rcases htot a b with h' | h'
          · exact absurd h' hab
          · exact h'
        · exact hb x hx

theorem sortBy_pairwise (le : α → α → Bool)
    (htot : ∀ x y, le x y = true ∨ le y x = true)
    (htrans : ∀ x y z, le x y = true → le y z = true → le x z = true) :
    ∀ l : List α, (sortBy le l).Pairwise (fun x y => le x y = true) := by
  intro l
  induction l with
  | nil => simp [sortBy]
  | cons a as ih => exact insertSorted_pairwise le htot htrans a (sortBy le as) ih

/-- Two sorted lists that are permutations of each other and whose elements
are determined by the order are equal. -/
theorem sorted_perm_eq (le : α → α → Bool) :
    ∀ l1 l2 : List α, l1.Perm l2 →
      l1.Pairwise (fun x y => le x y = true) → l2.Pairwise (fun x y => le x y = true) →
      (∀ a ∈ l1, ∀ b ∈ l1, le a b = true → le b a = true → a = b) → l1 = l2 := by
  intro l1
  induction l1 with
  | nil => intro l2 hp _ _ _; simpa using hp.nil_eq
  | cons a t1 ih =>
      intro l2 hp hs1 hs2 hanti
      cases l2 with
      | nil => exact absurd hp.symm (by simp)
      | cons b t2 =>
          have hab : a = b := by
            have hamem : a ∈ b :: t2 := hp.mem_iff.mp (by simp)
            have hbmem : b ∈ a :: t1 := hp.mem_iff.mpr (by simp)
            rcases List.mem_cons.mp hamem with h | hat2
            · exact h
            rcases List.mem_cons.mp hbmem with h | hbt1
            · exact h.symm
            have h1 : le a b = true := List.rel_of_pairwise_cons hs1 hbt1
            have h2 : le b a = true := List.rel_of_pairwise_cons hs2 hat2
            exact hanti a (by simp) b (by simp [hbt1]) h1 h2
          subst hab
          have ht : t1.Perm t2 := hp.cons_inv
          have := ih t2 ht (List.pairwise_cons.mp hs1).2 (List.pairwise_cons.mp hs2).2
            (fun x hx y hy hxy hyx => hanti x (by simp [hx]) y (by simp [hy]) hxy hyx)
          rw [this]

/-- Sorting is invariant under permutation of the input, provided elements
are determined by the order. -/
theorem sortBy_eq_of_perm (le : α → α → Bool)
    (htot : ∀ x y, le x y = true ∨ le y x = true)
    (htrans : ∀ x y z, le x y = true → le y z = true → le x z = true)
    (l1 l2 : List α) (hp : l1.Perm l2)
    (hanti : ∀ a ∈ l1, ∀ b ∈ l1, le a b = true → le b a = true → a = b) :
    sortBy le l1 = sortBy le l2 := by
  apply sorted_perm_eq le
  · exact (sortBy_perm le l1).trans (hp.trans (sortBy_perm le l2).symm)
  · exact sortBy_pairwise le htot htrans l1
  · exact sortBy_pairwise le htot htrans l2
  · intro a ha b hb
    exact hanti a ((sortBy_perm le l1).mem_iff.mp ha) b ((sortBy_perm le l1).mem_iff.mp hb)

/-- Sorting a list of strings (`sorted(...)` on hex digests) is invariant
under permutation of the input. -/
theorem sortStrings_eq_of_perm (l1 l2 : List String) (hp : l1.Perm l2) :
    sortBy strLe l1 = sortBy strLe l2 :=
  sortBy_eq_of_perm strLe strLe_total strLe_trans l1 l2 hp
    (fun a _ b _ h1 h2 => strLe_antisymm a b h1 h2)

theorem keyLe_total {γ : Type} (p q : String × γ) : keyLe p q = true ∨ keyLe q p = true :=
  strLe_total p.1 q.1

theorem keyLe_trans {γ : Type} (p q r : String × γ) (h1 : keyLe p q = true)
    (h2 : keyLe q r = true) : keyLe p r = true :=
  strLe_trans p.1 q.1 r.1 h1 h2

/-- Sorting mapping entries by key is invariant under permutation of the
entries when the keys are distinct. -/
theorem sortPairs_eq_of_perm {γ : Type} (l1 l2 : List (String × γ)) (hp : l1.Perm l2)
    (hnd : (l1.map Prod.fst).Nodup) :
    sortBy keyLe l1 = sortBy keyLe l2 := by
  apply sortBy_eq_of_perm keyLe keyLe_total (fun p q r => keyLe_trans p q r) l1 l2 hp
  intro a ha b hb h1 h2
  exact List.inj_on_of_nodup_map hnd ha hb (strLe_antisymm a.1 b.1 h1 h2)

/-! ## JSON canonical serialization (models `json.dumps(value, sort_keys=True)`) -/

/-- A JSON-serializable Python value, plus `unserializable` for values on which
`json.dumps` raises `TypeError` (sets, arbitrary objects, ...).  Floats are not
modelled; the jobs under study carry null/bool/int/str/list/dict parameters. -/
inductive PyObj : Type where
  | null : PyObj
  | boolean : Bool → PyObj
  | int : Int → PyObj
  | str : String → PyObj
  | list : List PyObj → PyObj
  | dict : List (String × PyObj) → PyObj
  | unserializable : PyObj

/-- Four lowercase hex digits (for `\uXXXX` escapes). -/
def hex4 (n : Nat) : String :=
  String.mk [hexChar (n / 4096 % 16), hexChar (n / 256 % 16), hexChar (n / 16 % 16),
    hexChar (n % 16)]

/-- Escaping of one character inside a JSON string literal, following
`json.dumps` with its default `ensure_ascii=True`. -/
def jsonEscapeChar (c : Char) : String :=
  if c = '"' then "\\\""
  else if c = '\\' then "\\\\"
  else if c = '\n' then "\\n"
  else if c = '\r' then "\\r"
  else if c = '\t' then "\\t"
  else if c = Char.ofNat 8 then "\\b"
  else if c = Char.ofNat 12 then "\\f"
  else if c.toNat < 0x20 then "\\u" ++ hex4 c.toNat
  else if c.toNat < 0x80 then String.singleton c
  else if c.toNat < 0x10000 then "\\u" ++ hex4 c.toNat
  else
    "\\u" ++ hex4 (0xD800 + (c.toNat - 0x10000) / 1024)
      ++ "\\u" ++ hex4 (0xDC00 + (c.toNat - 0x10000) % 1024)

def jsonQuote (s : String) : String :=
  "\"" ++ String.join (s.data.map jsonEscapeChar) ++ "\""

mutual
/-- `json.dumps(value, sort_keys=True)` with the default separators
`", "` and `": "`.  Returns `none` where Python raises `TypeError`.
Object entries are serialized and then ordered by key; since the keys of a
Python dict are distinct, this coincides with sorting the keys first. -/
def dumps : PyObj → Option String
  | .null => some "null"
  | .boolean b => some (if b then "true" else "false")
  | .int n => some (toString n)
  | .str s => some (jsonQuote s)
  | .list xs =>
    match dumpsList xs with
    | some ss => some ("[" ++ String.intercalate ", " ss ++ "]")
    | none => none
  | .dict fs =>
    match dumpsFields fs with
    | some ps => some ("\x7b" ++ String.intercalate ", "
        ((sortBy keyLe ps).map (fun p => jsonQuote p.1 ++ ": " ++ p.2)) ++ "\x7d")
    | none => none
  | .unserializable => none
def dumpsList : List PyObj → Option (List String)
  | [] => some []
  | x :: xs =>
    match dumps x, dumpsList xs with
    | some s, some ss => some (s :: ss)
    | _, _ => none
def dumpsFields : List (String × PyObj) → Option (List (String × String))
  | [] => some []
  | (k, v) :: fs =>
    match dumps v, dumpsFields fs with
    | some s, some ps => some ((k, s) :: ps)
    | _, _ => none
end

theorem dumpsFields_none_iff (fs : List (String × PyObj)) :
    dumpsFields fs = none ↔ ∃ p ∈ fs, dumps p.2 = none := by
  induction fs with
  | nil => simp [dumpsFields]
  | cons p t ih =>
      obtain ⟨k, v⟩ := p
      rw [dumpsFields]
      cases hv : dumps v with
      | none => simp [hv]
      | some s =>
          cases ht : dumpsFields t with
          | none =>
              constructor
              · intro _
                rcases ih.mp ht with ⟨q, hq, hqn⟩
                exact ⟨q, List.mem_cons_of_mem _ hq, hqn⟩
              · intro _; rfl
          | some ps =>
              constructor
              · intro h; cases h
              · rintro ⟨q, hq, hqn⟩
                exfalso
                rcases List.mem_cons.mp hq with rfl | hq
                · have hv' : dumps v = none := hqn
                  rw [hv] at hv'; cases hv'
                · have hnone := ih.mpr ⟨q, hq, hqn⟩
                  rw [hnone] at ht; cases ht

theorem dumpsFields_some_eq (fs : List (String × PyObj)) (ps : List (String × String))
    (h : dumpsFields fs = some ps) :
    ps = fs.map (fun p => (p.1, (dumps p.2).getD "")) := by
  induction fs generalizing ps with
  | nil => simp [dumpsFields] at h; simp [← h]
  | cons p t ih =>
      obtain ⟨k, v⟩ := p
      rw [dumpsFields] at h
      cases hv : dumps v with
      | none => rw [hv] at h; cases h
      | some s =>
          rw [hv] at h
          cases ht : dumpsFields t with
          | none => rw [ht] at h; cases h
          | some qs =>
              rw [ht] at h
              cases h
              simp [hv, ih qs ht]

/-- `sort_keys=True` makes serialization of a mapping independent of the
iteration order of its entries. -/
theorem dumps_dict_perm (fs1 fs2 : List (String × PyObj)) (hp : fs1.Perm fs2)
    (hnd : (fs1.map Prod.fst).Nodup) :
    dumps (.dict fs1) = dumps (.dict fs2) := by
  cases h1 : dumpsFields fs1 with
  | none =>
      have h2 : dumpsFields fs2 = none := by
        rw [dumpsFields_none_iff]
        rcases (dumpsFields_none_iff fs1).mp h1 with ⟨p, hmem, hn⟩
        exact ⟨p, hp.mem_iff.mp hmem, hn⟩
      rw [dumps, dumps, h1, h2]
  | some ps1 =>
      cases h2 : dumpsFields fs2 with
      | none =>
          exfalso
          rcases (dumpsFields_none_iff fs2).mp h2 with ⟨p, hmem, hn⟩
          have : dumpsFields fs1 = none :=
            (dumpsFields_none_iff fs1).mpr ⟨p, hp.mem_iff.mpr hmem, hn⟩
          rw [this] at h1; cases h1
      | some ps2 =>
          rw [dumps, dumps, h1, h2]
          have e1 := dumpsFields_some_eq fs1 ps1 h1
          have e2 := dumpsFields_some_eq fs2 ps2 h2
          have hpp : ps1.Perm ps2 := by
            rw [e1, e2]; exact hp.map _
          have hkeys : ps1.map Prod.fst = fs1.map Prod.fst := by
            rw [e1, List.map_map]; rfl
          have hsort : sortBy keyLe ps1 = sortBy keyLe ps2 := by
            apply sortPairs_eq_of_perm ps1 ps2 hpp
            rw [hkeys]; exact hnd
          simp [hsort]

/-! ## Data model: jobs, graph, engine state

`snakemake/caching/hash.py` consumes jobs and the DAG through a narrow
interface (`job.output`, `job.input`, `job.params._allitems()`,
`job.rule.shellcmd`, resolved script/wrapper sources, `job.conda_env`,
`job.singularity_img_url`, `workflow.use_conda`, `workflow.use_singularity`,
`job.dag.dependencies[job]`).  Jobs are identified by naturals (object
identity); `Env` bundles the read-only collaborators. -/

/-- Errors surfaced by the hashing core.  `MultiOutputError` is the
`WorkflowError` raised for jobs with more than one output; the
`UnhashableParameterError` is the `TypeError` from `json.dumps`;
`InputReadError` is the I/O error for a missing input file;
`InvalidOpenMode` is the `ValueError` Python's `open` raises when the mode
string lacks a read/write/append/create flag; `RecursionError` models
Python's bounded recursion depth. -/
inductive HashErr : Type where
  | MultiOutputError : String → HashErr
  | UnhashableParameterError : HashErr
  | InvalidOpenMode : String → HashErr
  | InputReadError : String → HashErr
  | RecursionError : HashErr
deriving DecidableEq

/-- A conda environment: its content blob and (possibly empty, i.e. falsy)
container image URL. -/
structure CondaEnv : Type where
  content : String
  singularity_img_url : String
deriving DecidableEq

/-- A job, as consumed by the hashing core.  `scriptSource` and
`wrapperSource` are the resolved source texts that `script.get_source` /
`wrapper.get_script` return for the job's script/wrapper (external
collaborators of this core).  An empty `singularity_img_url` is falsy. -/
structure Job : Type where
  ruleName : String
  output : List String
  input : List String
  params : List (String × PyObj)
  is_shell : Bool
  is_script : Bool
  is_wrapper : Bool
  shellcmd : String
  scriptSource : String
  wrapperSource : String
  conda_env : Option CondaEnv
  singularity_img_url : String

/-- The read-only collaborators: workflow flags, job table, dependency
mapping (per job: the list of (upstream job, files it supplies) entries, in
dict iteration order) and the file system. -/
structure Env : Type where
  use_conda : Bool
  use_singularity : Bool
  job : Nat → Job
  deps : Nat → List (Nat × List String)
  fs : String → Option (List Nat)

/-- The `self._hashes` memo dict, as an association list (most recent
insertion first). -/
abbrev Memo := List (Nat × String)

def lookupMemo : Memo → Nat → Option String
  | [], _ => none
  | (k, d) :: rest, i => if k = i then some d else lookupMemo rest i

/-! ## The digest derivation (`_get_provenance_hash` body) -/

/-- The execution-descriptor bytes: `job.rule.shellcmd` for shell jobs, else
the resolved script or wrapper source, else nothing. -/
def execBytes (j : Job) : List Nat :=
  if j.is_shell then strBytes j.shellcmd
  else if j.is_script then strBytes j.scriptSource
  else if j.is_wrapper then strBytes j.wrapperSource
  else []

/-- The parameter loop body: for each (key, value) in order, feed the key
bytes and the canonical serialization of the value; `TypeError` from
`json.dumps` aborts the computation. -/
def paramsGo : List (String × PyObj) → Except HashErr (List Nat)
  | [] => .ok []
  | (k, v) :: rest =>
    match dumps v with
    | none => .error .UnhashableParameterError
    | some s =>
      match paramsGo rest with
      | .error er => .error er
      | .ok bs => .ok (strBytes k ++ strBytes s ++ bs)

/-- `for key, value in sorted(job.params._allitems()): ...` — the entries of
the params mapping are visited in sorted order (`sorted` on pairs whose keys
are the distinct keys of a mapping orders them by key). -/
def paramsBytes (ps : List (String × PyObj)) : Except HashErr (List Nat) :=
  paramsGo (sortBy keyLe ps)

/-- `any(f in depfiles for depfiles in job.dag.dependencies[job].values())`:
whether input `f` is supplied by some upstream dependency. -/
def isInternal (e : Env) (i : Nat) (f : String) : Bool :=
  (e.deps i).any (fun p => p.2.contains f)

/-- Python's `open` requires the mode string to contain exactly one of
`r`/`w`/`a`/`x`; otherwise it raises
`ValueError: Must have exactly one of create/read/write/append mode`. -/
def pyOpenModeOk (mode : String) : Bool :=
  (mode.data.filter (fun c => c == 'r' || c == 'w' || c == 'a' || c == 'x')).length == 1

/-- `iter(lambda: f.read(4096), b"")`: the file content in 4096-byte blocks. -/
def chunkBlocks4k : List Nat → List (List Nat)
  | [] => []
  | b :: rest => ((b :: rest).take 4096) :: chunkBlocks4k ((b :: rest).drop 4096)
termination_by l => l.length
decreasing_by simp; omega

/-- `open(f, mode)` followed by reading all 4096-byte blocks: validates the
mode string first (as CPython does, before touching the file system), then
reads the file, failing if it does not exist. -/
def pyReadBlocks (fs : String → Option (List Nat)) (path mode : String) :
    Except HashErr (List (List Nat)) :=
  if pyOpenModeOk mode then
    match fs path with
    | some content => .ok (chunkBlocks4k content)
    | none => .error (.InputReadError path)
  else .error (.InvalidOpenMode mode)

/-- The input-file loop: inputs supplied by an upstream dependency are
skipped; the others are opened — with mode `"b"`, exactly as in the source —
and their blocks fed to the accumulator. -/
def inputBytes (e : Env) (i : Nat) : List String → Except HashErr (List Nat)
  | [] => .ok []
  | f :: rest =>
    if isInternal e i f then inputBytes e i rest
    else
      match pyReadBlocks e.fs f "b" with
      | .error er => .error er
      | .ok blocks =>
        match inputBytes e i rest with
        | .error er => .error er
        | .ok bs => .ok (blocks.flatten ++ bs)

/-- The environment-descriptor bytes:
`if workflow.use_conda and job.conda_env: ... elif workflow.use_singularity
and job.singularity_img_url: ...` with the container URL fed before the conda
content when both are active. -/
def envBytes (e : Env) (j : Job) : List Nat :=
  match j.conda_env, e.use_conda with
  | some ce, true =>
      (if e.use_singularity && ce.singularity_img_url != "" then
        strBytes ce.singularity_img_url
      else []) ++ strBytes ce.content
  | _, _ =>
      if e.use_singularity && j.singularity_img_url != "" then
        strBytes j.singularity_img_url
      else []

/-- All accumulator bytes fed before the dependency digests, in source
order: execution descriptor, params, external inputs, environment. -/
def prefixBytes (e : Env) (i : Nat) : Except HashErr (List Nat) :=
  match paramsBytes (e.job i).params with
  | .error er => .error er
  | .ok pb =>
    match inputBytes e i (e.job i).input with
    | .error er => .error er
    | .ok ib => .ok (execBytes (e.job i) ++ pb ++ ib ++ envBytes e (e.job i))

/-- `set(job.dag.dependencies[job].keys())`: the distinct upstream jobs. -/
def depIds (e : Env) (i : Nat) : List Nat :=
  ((e.deps i).map Prod.fst).dedup

/-- The generator `(self._get_provenance_hash(dep) for dep in ...)`: hashes
each dependency in turn, threading the memo map; an exception propagates,
keeping the memo entries already written. -/
def hashDeps (recur : Memo → Nat → Memo × Except HashErr String) :
    Memo → List Nat → Memo × Except HashErr (List String)
  | m, [] => (m, .ok [])
  | m, d :: ds =>
    match recur m d with
    | (m', .error er) => (m', .error er)
    | (m', .ok h) =>
      match hashDeps recur m' ds with
      | (m'', .error er) => (m'', .error er)
      | (m'', .ok hs) => (m'', .ok (h :: hs))

/-- `h.hexdigest()` after feeding the prefix bytes and the sorted dependency
digests. -/
def finishDigest (pre : List Nat) (hs : List String) : String :=
  hexdigest (pre ++ ((sortBy strLe hs).map strBytes).flatten)

/-- One unfolding of `_get_provenance_hash`: memo lookup, the multi-output
check, then the digest derivation; `recur?` is the recursive call at the next
depth (`none` when the recursion depth is exhausted). -/
def hashStep (e : Env) (recur? : Option (Memo → Nat → Memo × Except HashErr String))
    (m : Memo) (i : Nat) : Memo × Except HashErr String :=
  match lookupMemo m i with
  | some d => (m, .ok d)
  | none =>
    if (e.job i).output.length > 1 then
      (m, .error (.MultiOutputError (e.job i).ruleName))
    else
      match recur? with
      | none => (m, .error .RecursionError)
      | some recur =>
        match prefixBytes e i with
        | .error er => (m, .error er)
        | .ok pre =>
          match hashDeps recur m (depIds e i) with
          | (m', .error er) => (m', .error er)
          | (m', .ok hs) => ((i, finishDigest pre hs) :: m', .ok (finishDigest pre hs))

/-- `ProvenanceHashMap._get_provenance_hash(job)`, with explicit recursion
fuel: returns the updated memo map and the unversioned digest (or the error
surfaced to the caller). -/
def _get_provenance_hash (e : Env) : Nat → Memo → Nat → Memo × Except HashErr String
  | 0 => hashStep e none
  | f + 1 => hashStep e (some (_get_provenance_hash e f))

/-- `__version__ = "0.1"` — the algorithm version tag. -/
def hashVersion : String := "0.1"

/-- `ProvenanceHashMap.get_provenance_hash(job)` with the version tag as an
explicit argument: a fresh accumulator is fed the hex text of the
unversioned digest and then the tag. -/
def getProvenanceHashWith (ver : String) (e : Env) (f : Nat) (m : Memo) (i : Nat) :
    Memo × Except HashErr String :=
  match _get_provenance_hash e f m i with
  | (m', .ok inner) => (m', .ok (hexdigest (strBytes inner ++ strBytes ver)))
  | (m', .error er) => (m', .error er)

/-- `ProvenanceHashMap.get_provenance_hash(job)`: the public entry point,
using the module's version tag. -/
def get_provenance_hash (e : Env) (f : Nat) (m : Memo) (i : Nat) :
    Memo × Except HashErr String :=
  getProvenanceHashWith hashVersion e f m i

/-! ## The canonical digest relation

`CanonDigest e i d` says that `d` is the digest the algorithm assigns to job
`i` in environment `e`: the finished accumulator over the job's prefix bytes
and the (sorted) canonical digests of its distinct dependencies.  It is the
memo-independent specification of `_get_provenance_hash`; the soundness
lemmas below show every digest the engine returns, and every digest it
stores in the memo map, is canonical — which yields determinism,
memoization correctness and order independence. -/

inductive CanonDigest (e : Env) : Nat → String → Prop where
  | mk (i : Nat) (pre : List Nat) (hs : List String)
      (hout : ¬ (e.job i).output.length > 1)
      (hpre : prefixBytes e i = .ok pre)
      (hlen : hs.length = (depIds e i).length)
      (hdeps : ∀ k (hk1 : k < hs.length) (hk2 : k < (depIds e i).length),
        CanonDigest e ((depIds e i).get ⟨k, hk2⟩) (hs.get ⟨k, hk1⟩)) :
      CanonDigest e i (finishDigest pre hs)

/-- Each job has at most one canonical digest. -/
theorem canon_unique (e : Env) : ∀ i d1, CanonDigest e i d1 →
    ∀ d2, CanonDigest e i d2 → d1 = d2 := by
  intro i d1 h1
  induction h1 with
  | mk i pre hs hout hpre hlen hdeps ih =>
      intro d2 h2
      cases h2 with
      | mk _ pre2 hs2 hout2 hpre2 hlen2 hdeps2 =>
          rw [hpre] at hpre2
          cases hpre2
          have hhs : hs = hs2 := by
            apply List.ext_get (by omega)
            intro n hn1 hn2
            exact ih n hn1 (by omega) (hs2.get ⟨n, hn2⟩) (hdeps2 n hn2 (by omega))
          rw [hhs]

/-- Lookups present in `m` are present, with the same digest, in `m'`:
the memo map is only ever extended, never evicted or overwritten. -/
def MemoExtends (m m' : Memo) : Prop :=
  ∀ k v, lookupMemo m k = some v → lookupMemo m' k = some v

theorem memoExtends_refl (m : Memo) : MemoExtends m m := fun _ _ h => h

theorem memoExtends_trans {m1 m2 m3 : Memo} (h1 : MemoExtends m1 m2)
    (h2 : MemoExtends m2 m3) : MemoExtends m1 m3 :=
  fun k v h => h2 k v (h1 k v h)

/-- Every digest stored in the memo map is canonical. -/
def GoodMemo (e : Env) (m : Memo) : Prop :=
  ∀ k v, lookupMemo m k = some v → CanonDigest e k v

theorem goodMemo_nil (e : Env) : GoodMemo e [] := by
  intro k v h
  cases h

/-- Soundness interface of one level of the recursion: from a good memo it
produces a good, extended memo, and an `ok` result is the job's canonical
digest and has been memoized. -/
def HashSound (e : Env) (recur : Memo → Nat → Memo × Except HashErr String) : Prop :=
  ∀ m i, GoodMemo e m →
    GoodMemo e (recur m i).1 ∧ MemoExtends m (recur m i).1 ∧
    ∀ d, (recur m i).2 = .ok d →
      CanonDigest e i d ∧ lookupMemo (recur m i).1 i = some d

theorem hashDeps_sound (e : Env) (recur : Memo → Nat → Memo × Except HashErr String)
    (hrec : HashSound e recur) :
    ∀ (ids : List Nat) (m : Memo), GoodMemo e m →
      GoodMemo e (hashDeps recur m ids).1 ∧ MemoExtends m (hashDeps recur m ids).1 ∧
      ∀ hs, (hashDeps recur m ids).2 = .ok hs →
        hs.length = ids.length ∧
        ∀ k (hk1 : k < hs.length) (hk2 : k < ids.length),
          CanonDigest e (ids.get ⟨k, hk2⟩) (hs.get ⟨k, hk1⟩) := by
  intro ids
  induction ids with
  | nil =>
      intro m hg
      refine ⟨hg, memoExtends_refl m, ?_⟩
      intro hs h
      have : hs = [] := by
        simpa [hashDeps] using h.symm
      subst this
      exact ⟨rfl, fun k hk1 hk2 => absurd hk1 (by simp)⟩
  | cons d ds ih =>
      intro m hg
      obtain ⟨hg1, hext1, hok1⟩ := hrec m d hg
      rcases hrun1 : recur m d with ⟨m1, r1⟩
      rw [hrun1] at hg1 hext1 hok1
      cases r1 with
      | error er =>
          have hred : hashDeps recur m (d :: ds) = (m1, .error er) := by
            simp [hashDeps, hrun1]
          rw [hred]
          exact ⟨hg1, hext1, fun hs h => by cases h⟩
      | ok h1 =>
          obtain ⟨hg2, hext2, hok2⟩ := ih m1 hg1
          rcases hrun2 : hashDeps recur m1 ds with ⟨m2, r2⟩
          rw [hrun2] at hg2 hext2 hok2
          cases r2 with
          | error er =>
              have hred : hashDeps recur m (d :: ds) = (m2, .error er) := by
                simp [hashDeps, hrun1, hrun2]
              rw [hred]
              exact ⟨hg2, memoExtends_trans hext1 hext2, fun hs h => by cases h⟩
          | ok hs2 =>
              have hred : hashDeps recur m (d :: ds) = (m2, .ok (h1 :: hs2)) := by
                simp [hashDeps, hrun1, hrun2]
              rw [hred]
              refine ⟨hg2, memoExtends_trans hext1 hext2, ?_⟩
              intro hs h
              have hh : h1 :: hs2 = hs := by
                simpa using h
              subst hh
              obtain ⟨hlen2, hpt2⟩ := hok2 hs2 rfl
              refine ⟨by simpa using hlen2, ?_⟩
              intro k hk1 hk2
              cases k with
              | zero =>
                  simpa using (hok1 h1 rfl).1
              | succ k =>
                  simpa using hpt2 k (by simpa using hk1) (by simpa using hk2)

theorem hashStep_sound_hit (e : Env)
    (recur? : Option (Memo → Nat → Memo × Except HashErr String))
    (m : Memo) (i : Nat) (d : String) (hlook : lookupMemo m i = some d) :
    hashStep e recur? m i = (m, .ok d) := by
  simp [hashStep, hlook]

theorem hashStep_sound_none (e : Env) : HashSound e (hashStep e none) := by
  intro m i hg
  cases hlook : lookupMemo m i with
  | some d =>
      rw [hashStep_sound_hit e none m i d hlook]
      refine ⟨hg, memoExtends_refl m, ?_⟩
      intro d' hd'
      have : d = d' := by simpa using hd'
      subst this
      exact ⟨hg i d hlook, hlook⟩
  | none =>
      by_cases hout : (e.job i).output.length > 1
      · have hred : hashStep e none m i = (m, .error (.MultiOutputError (e.job i).ruleName)) := by
          simp [hashStep, hlook, hout]
        rw [hred]
        exact ⟨hg, memoExtends_refl m, fun d hd => absurd hd (by simp)⟩
      · have hred : hashStep e none m i = (m, .error .RecursionError) := by
          simp [hashStep, hlook, hout]
        rw [hred]
        exact ⟨hg, memoExtends_refl m, fun d hd => absurd hd (by simp)⟩

theorem hashStep_sound_some (e : Env) (recur : Memo → Nat → Memo × Except HashErr String)
    (hrec : HashSound e recur) : HashSound e (hashStep e (some recur)) := by
  intro m i hg
  cases hlook : lookupMemo m i with
  | some d =>
      rw [hashStep_sound_hit e (some recur) m i d hlook]
      refine ⟨hg, memoExtends_refl m, ?_⟩
      intro d' hd'
      have : d = d' := by simpa using hd'
      subst this
      exact ⟨hg i d hlook, hlook⟩
  | none =>
      by_cases hout : (e.job i).output.length > 1
      · have hred : hashStep e (some recur) m i
            = (m, .error (.MultiOutputError (e.job i).ruleName)) := by
          simp [hashStep, hlook, hout]
        rw [hred]
        exact ⟨hg, memoExtends_refl m, fun d hd => absurd hd (by simp)⟩
      · cases hpre : prefixBytes e i with
        | error er =>
            have hred : hashStep e (some recur) m i = (m, .error er) := by
              simp [hashStep, hlook, hout, hpre]
            rw [hred]
            exact ⟨hg, memoExtends_refl m, fun d hd => absurd hd (by simp)⟩
        | ok pre =>
            obtain ⟨hg1, hext1, hok1⟩ := hashDeps_sound e recur hrec (depIds e i) m hg
            rcases hrun : hashDeps recur m (depIds e i) with ⟨m1, r1⟩
            rw [hrun] at hg1 hext1 hok1
            cases r1 with
            | error er =>
                have hred : hashStep e (some recur) m i = (m1, .error er) := by
                  simp [hashStep, hlook, hout, hpre, hrun]
                rw [hred]
                exact ⟨hg1, hext1, fun d hd => absurd hd (by simp)⟩
            | ok hs =>
                obtain ⟨hlen, hpt⟩ := hok1 hs rfl
                have hred : hashStep e (some recur) m i
                    = ((i, finishDigest pre hs) :: m1, .ok (finishDigest pre hs)) := by
                  simp [hashStep, hlook, hout, hpre, hrun]
                rw [hred]
                have hcanon : CanonDigest e i (finishDigest pre hs) :=
                  CanonDigest.mk i pre hs hout hpre hlen hpt
                refine ⟨?_, ?_, ?_⟩
                · intro k v hkv
                  by_cases hik : i = k
                  · subst hik
                    have : v = finishDigest pre hs := by
                      simpa [lookupMemo] using hkv.symm
                    subst this
                    exact hcanon
                  · have : lookupMemo m1 k = some v := by
                      simpa [lookupMemo, hik] using hkv
                    exact hg1 k v this
                · intro k v hkv
                  by_cases hik : i = k
                  · subst hik
                    rw [hlook] at hkv
                    cases hkv
                  · have := hext1 k v hkv
                    simpa [lookupMemo, hik] using this
                · intro d hd
                  have : finishDigest pre hs = d := by simpa using hd
                  subst this
                  exact ⟨hcanon, by simp [lookupMemo]⟩

/-- Every fuel level of `_get_provenance_hash` satisfies the soundness
interface: from a good memo it returns a good, extended memo, and an `ok`
digest is the job's canonical digest, memoized on return. -/
theorem get_sound (e : Env) : ∀ f, HashSound e (_get_provenance_hash e f) := by
  intro f
  induction f with
  | zero => exact hashStep_sound_none e
  | succ f ih => exact hashStep_sound_some e _ ih

/-! ## Iteration-order reordering

Two environments are *reorderings* of each other when they present the same
graph, file contents and jobs, with the `params` mapping of each job and the
`dependencies[job]` dict of each job iterated in possibly different orders.
Canonical digests are invariant under reordering. -/

/-- Same job, with the `params` mapping iterated in a different order.
The keys of a mapping are distinct. -/
def JobReorder (j1 j2 : Job) : Prop :=
  j1 = { j2 with params := j1.params } ∧ j1.params.Perm j2.params ∧
  (j1.params.map Prod.fst).Nodup

/-- Same graph, file contents and configuration; `params` and
`dependencies[job]` iterated in possibly different orders. -/
def EnvReorder (e1 e2 : Env) : Prop :=
  e1.use_conda = e2.use_conda ∧ e1.use_singularity = e2.use_singularity ∧
  (∀ p, e1.fs p = e2.fs p) ∧
  (∀ i, JobReorder (e1.job i) (e2.job i)) ∧
  (∀ i, (e1.deps i).Perm (e2.deps i))

theorem perm_any_eq {γ : Type} {l1 l2 : List γ} (hp : l1.Perm l2) (p : γ → Bool) :
    l1.any p = l2.any p := by
  cases h2 : l2.any p with
  | true =>
      rw [List.any_eq_true] at h2 ⊢
      rcases h2 with ⟨x, hx, hpx⟩
      exact ⟨x, hp.mem_iff.mpr hx, hpx⟩
  | false =>
      rw [List.any_eq_false] at h2 ⊢
      intro x hx
      exact h2 x (hp.mem_iff.mp hx)

/-- The parameter bytes depend only on the params mapping, not on its
iteration order. -/
theorem paramsBytes_perm (ps1 ps2 : List (String × PyObj)) (hp : ps1.Perm ps2)
    (hnd : (ps1.map Prod.fst).Nodup) : paramsBytes ps1 = paramsBytes ps2 := by
  unfold paramsBytes
  rw [sortPairs_eq_of_perm ps1 ps2 hp hnd]

theorem pyReadBlocks_congr (fs1 fs2 : String → Option (List Nat)) (path mode : String)
    (h : fs1 path = fs2 path) : pyReadBlocks fs1 path mode = pyReadBlocks fs2 path mode := by
  unfold pyReadBlocks
  rw [h]

theorem inputBytes_congr (e1 e2 : Env) (i : Nat)
    (hdep : (e1.deps i).Perm (e2.deps i)) (hfs : ∀ p, e1.fs p = e2.fs p) :
    ∀ l, inputBytes e1 i l = inputBytes e2 i l := by
  intro l
  induction l with
  | nil => rfl
  | cons f rest ih =>
      unfold inputBytes
      have hint : isInternal e1 i f = isInternal e2 i f := by
        unfold isInternal
        exact perm_any_eq hdep _
      have hrb : pyReadBlocks e1.fs f "b" = pyReadBlocks e2.fs f "b" :=
        pyReadBlocks_congr e1.fs e2.fs f "b" (hfs f)
      rw [hint, ih, hrb]

/-- The prefix bytes (execution descriptor, params, external input contents,
environment descriptor) are invariant under reordering. -/
theorem prefixBytes_reorder (e1 e2 : Env) (hre : EnvReorder e1 e2) (i : Nat) :
    prefixBytes e1 i = prefixBytes e2 i := by
  obtain ⟨hc, hsg, hfs, hjob, hdp⟩ := hre
  obtain ⟨hrec, hperm, hnd⟩ := hjob i
  have hpar : paramsBytes (e1.job i).params = paramsBytes (e2.job i).params := by
    have : (e2.job i).params.Perm (e1.job i).params := hperm.symm
    exact paramsBytes_perm _ _ hperm hnd
  have hexec : execBytes (e1.job i) = execBytes (e2.job i) := by
    rw [hrec]
    rfl
  have henv : envBytes e1 (e1.job i) = envBytes e2 (e2.job i) := by
    rw [hrec]
    unfold envBytes
    rw [hc, hsg]
  have hinp_list : (e1.job i).input = (e2.job i).input := by
    rw [hrec]
  have hinp : inputBytes e1 i ((e2.job i).input) = inputBytes e2 i ((e2.job i).input) :=
    inputBytes_congr e1 e2 i (hdp i) hfs _
  unfold prefixBytes
  rw [hpar, hexec, henv, hinp_list, hinp]

theorem depIds_reorder (e1 e2 : Env) (hre : EnvReorder e1 e2) (i : Nat) :
    (depIds e1 i).Perm (depIds e2 i) := by
  obtain ⟨_, _, _, _, hdp⟩ := hre
  exact ((hdp i).map Prod.fst).dedup

/-- Transport of a pointwise relation along a permutation of the left list. -/
theorem forall2_perm_exists {γ δ : Type} {R : γ → δ → Prop} {l1 l2 : List γ}
    (hp : l1.Perm l2) :
    ∀ {h : List δ}, List.Forall₂ R l1 h → ∃ h2, h.Perm h2 ∧ List.Forall₂ R l2 h2 := by
  induction hp with
  | nil =>
      intro h hf
      cases hf
      exact ⟨[], List.Perm.refl [], List.Forall₂.nil⟩
  | cons x hp ih =>
      intro h hf
      cases hf with
      | cons hr hf' =>
          rcases ih hf' with ⟨h2, hperm, hf2⟩
          exact ⟨_ :: h2, hperm.cons _, List.Forall₂.cons hr hf2⟩
  | swap x y l =>
      intro h hf
      cases hf with
      | cons hr1 hf' =>
          cases hf' with
          | cons hr2 hf'' =>
              exact ⟨_ :: _ :: _, List.Perm.swap _ _ _, List.Forall₂.cons hr2
                (List.Forall₂.cons hr1 hf'')⟩
  | trans hp1 hp2 ih1 ih2 =>
      intro h hf
      rcases ih1 hf with ⟨hm, hpm, hfm⟩
      rcases ih2 hfm with ⟨h2, hp2', hf2⟩
      exact ⟨h2, hpm.trans hp2', hf2⟩

/-- Canonical digests are invariant under reordering of the `params` and
`dependencies` mappings. -/
theorem canon_transport (e1 e2 : Env) (hre : EnvReorder e1 e2) :
    ∀ i d, CanonDigest e1 i d → CanonDigest e2 i d := by
  intro i d h
  induction h with
  | mk i pre hs hout hpre hlen hdeps ih =>
      have hout2 : ¬ (e2.job i).output.length > 1 := by
        have heq : (e1.job i).output = (e2.job i).output := by
          rw [(hre.2.2.2.1 i).1]
        rwa [heq] at hout
      have hpre2 : prefixBytes e2 i = .ok pre := by
        rw [← prefixBytes_reorder e1 e2 hre i]
        exact hpre
      have hperm : (depIds e1 i).Perm (depIds e2 i) := depIds_reorder e1 e2 hre i
      have hf1 : List.Forall₂ (CanonDigest e2) (depIds e1 i) hs := by
        rw [List.forall₂_iff_get]
        exact ⟨hlen.symm, fun n h1 h2 => ih n h2 h1⟩
      rcases forall2_perm_exists hperm hf1 with ⟨hs2, hsp, hf2⟩
      have hfin : finishDigest pre hs = finishDigest pre hs2 := by
        unfold finishDigest
        rw [sortStrings_eq_of_perm hs hs2 hsp]
      rw [hfin]
      rw [List.forall₂_iff_get] at hf2
      exact CanonDigest.mk i pre hs2 hout2 hpre2 hf2.1.symm (fun k hk1 hk2 => hf2.2 k hk2 hk1)

/-! ## Helper corollaries -/

/-- A memoized job is answered from the memo map: the stored digest is
returned at any fuel and the memo map is unchanged. -/
theorem get_memo_hit (e : Env) (f : Nat) (m : Memo) (i : Nat) (d : String)
    (h : lookupMemo m i = some d) : _get_provenance_hash e f m i = (m, .ok d) := by
  cases f with
  | zero => exact hashStep_sound_hit e none m i d h
  | succ f => exact hashStep_sound_hit e _ m i d h

theorem getWith_ok (ver : String) (e : Env) (f : Nat) (m : Memo) (i : Nat) (m' : Memo)
    (inner : String) (h : _get_provenance_hash e f m i = (m', .ok inner)) :
    getProvenanceHashWith ver e f m i
      = (m', .ok (hexdigest (strBytes inner ++ strBytes ver))) := by
  unfold getProvenanceHashWith
  rw [h]

theorem getWith_error (ver : String) (e : Env) (f : Nat) (m : Memo) (i : Nat) (m' : Memo)
    (er : HashErr) (h : _get_provenance_hash e f m i = (m', .error er)) :
    getProvenanceHashWith ver e f m i = (m', .error er) := by
  unfold getProvenanceHashWith
  rw [h]

theorem getWith_fst (ver : String) (e : Env) (f : Nat) (m : Memo) (i : Nat) :
    (getProvenanceHashWith ver e f m i).1 = (_get_provenance_hash e f m i).1 := by
  unfold getProvenanceHashWith
  rcases h : _get_provenance_hash e f m i with ⟨m', r⟩
  cases r <;> simp

theorem hashDeps_ok_length (recur : Memo → Nat → Memo × Except HashErr String) :
    ∀ (ids : List Nat) (m m1 : Memo) (hs : List String),
      hashDeps recur m ids = (m1, .ok hs) → hs.length = ids.length := by
  intro ids
  induction ids with
  | nil =>
      intro m m1 hs h
      have : hs = [] := by
        have := (by simpa [hashDeps] using h : m = m1 ∧ hs = [])
        exact this.2
      rw [this]
      rfl
  | cons d ds ih =>
      intro m m1 hs h
      rcases hrun1 : recur m d with ⟨m2, r1⟩
      cases r1 with
      | error er =>
          rw [show hashDeps recur m (d :: ds) = (m2, .error er) by
            simp [hashDeps, hrun1]] at h
          cases h
      | ok h1 =>
          rcases hrun2 : hashDeps recur m2 ds with ⟨m3, r2⟩
          cases r2 with
          | error er =>
              rw [show hashDeps recur m (d :: ds) = (m3, .error er) by
                simp [hashDeps, hrun1, hrun2]] at h
              cases h
          | ok hs2 =>
              rw [show hashDeps recur m (d :: ds) = (m3, .ok (h1 :: hs2)) by
                simp [hashDeps, hrun1, hrun2]] at h
              obtain ⟨h1', h2'⟩ := Prod.mk.injEq .. |>.mp h
              have : h1 :: hs2 = hs := by simpa using h2'
              rw [← this]
              simpa using ih m2 m3 hs2 hrun2

theorem strBytes_append_lt (s t : String) : ∀ b ∈ strBytes s ++ strBytes t, b < 256 := by
  intro b hb
  rcases List.mem_append.mp hb with h | h
  · exact strBytes_lt s b h
  · exact strBytes_lt t b h

/-- Feeding the same leading bytes and then two different version tags gives
two different digests. -/
theorem hexdigest_version_ne (a v1 v2 : String) (h : v1 ≠ v2) :
    hexdigest (strBytes a ++ strBytes v1) ≠ hexdigest (strBytes a ++ strBytes v2) := by
  intro hc
  have heq := hexdigest_inj _ _ (strBytes_append_lt a v1) (strBytes_append_lt a v2) hc
  have := List.append_cancel_left heq
  exact h (strBytes_injective this)

/-! ## The claims -/

/-- C1: For a fixed task graph, fixed file contents, and fixed parameter
values, `get_provenance_hash(job)` returns the same hex digest across
repeated calls on the same engine instance (second conjunct: a repeated call
on the memo map produced by the first call returns the same digest, at any
recursion budget) and across independent engine instances (both runs start
from an empty memo map), for every job, regardless of the iteration order of
the job's `params` mapping or of the graph's `dependencies` mapping (the two
runs use environments that reorder those mappings arbitrarily). -/
theorem C1_determinism (e1 e2 : Env) (f1 f2 f3 : Nat) (i : Nat)
    (m1 m2 : Memo) (D1 D2 : String)
    (hre : EnvReorder e1 e2)
    (h1 : get_provenance_hash e1 f1 [] i = (m1, .ok D1))
    (h2 : get_provenance_hash e2 f2 [] i = (m2, .ok D2)) :
    D1 = D2 ∧ (get_provenance_hash e1 f3 m1 i).2 = .ok D1 := by
  rcases hg1 : _get_provenance_hash e1 f1 [] i with ⟨m1', r1⟩
  cases r1 with
  | error er =>
      have h1' : get_provenance_hash e1 f1 [] i = (m1', .error er) :=
        getWith_error hashVersion e1 f1 [] i m1' er hg1
      rw [h1'] at h1
      simp at h1
  | ok inner1 =>
      have h1' : get_provenance_hash e1 f1 [] i
          = (m1', .ok (hexdigest (strBytes inner1 ++ strBytes hashVersion))) :=
        getWith_ok hashVersion e1 f1 [] i m1' inner1 hg1
      rw [h1'] at h1
      obtain ⟨hm1, hd1⟩ := Prod.mk.injEq .. |>.mp h1
      have hD1 : D1 = hexdigest (strBytes inner1 ++ strBytes hashVersion) := by
        injection hd1 with hd1
        exact hd1.symm
      rcases hg2 : _get_provenance_hash e2 f2 [] i with ⟨m2', r2⟩
      cases r2 with
      | error er =>
          have h2' : get_provenance_hash e2 f2 [] i = (m2', .error er) :=
            getWith_error hashVersion e2 f2 [] i m2' er hg2
          rw [h2'] at h2
          simp at h2
      | ok inner2 =>
          have h2' : get_provenance_hash e2 f2 [] i
              = (m2', .ok (hexdigest (strBytes inner2 ++ strBytes hashVersion))) :=
            getWith_ok hashVersion e2 f2 [] i m2' inner2 hg2
          rw [h2'] at h2
          obtain ⟨hm2, hd2⟩ := Prod.mk.injEq .. |>.mp h2
          have hD2 : D2 = hexdigest (strBytes inner2 ++ strBytes hashVersion) := by
            injection hd2 with hd2
            exact hd2.symm
          obtain ⟨_, _, hok1⟩ := get_sound e1 f1 [] i (goodMemo_nil e1)
          rw [hg1] at hok1
          obtain ⟨hcanon1, hlook1⟩ := hok1 inner1 rfl
          obtain ⟨_, _, hok2⟩ := get_sound e2 f2 [] i (goodMemo_nil e2)
          rw [hg2] at hok2
          obtain ⟨hcanon2, _⟩ := hok2 inner2 rfl
          have hcanon1' : CanonDigest e2 i inner1 :=
            canon_transport e1 e2 hre i inner1 hcanon1
          have hinner : inner1 = inner2 :=
            canon_unique e2 i inner1 hcanon1' inner2 hcanon2
          constructor
          · rw [hD1, hD2, hinner]
          · have hlook : lookupMemo m1 i = some inner1 := by
              rw [← hm1]
              exact hlook1
            have hhit : _get_provenance_hash e1 f3 m1 i = (m1, .ok inner1) :=
              get_memo_hit e1 f3 m1 i inner1 hlook
            have : get_provenance_hash e1 f3 m1 i
                = (m1, .ok (hexdigest (strBytes inner1 ++ strBytes hashVersion))) :=
              getWith_ok hashVersion e1 f3 m1 i m1 inner1 hhit
            rw [this, hD1]

/-- C2: The final digest equals the digest of the hex text of the
unversioned digest concatenated with the version tag fed into a fresh
accumulator; and with the tag made an explicit parameter, two distinct
version tags yield two distinct final digests for the same job even when
nothing else changed. -/
theorem C2_versioning (e : Env) (f : Nat) (m m' : Memo) (i : Nat) (inner : String)
    (v1 v2 : String) (hv : v1 ≠ v2)
    (h : _get_provenance_hash e f m i = (m', .ok inner)) :
    get_provenance_hash e f m i
        = (m', .ok (hexdigest (strBytes inner ++ strBytes hashVersion)))
    ∧ getProvenanceHashWith v1 e f m i
        = (m', .ok (hexdigest (strBytes inner ++ strBytes v1)))
    ∧ getProvenanceHashWith v2 e f m i
        = (m', .ok (hexdigest (strBytes inner ++ strBytes v2)))
    ∧ hexdigest (strBytes inner ++ strBytes v1)
        ≠ hexdigest (strBytes inner ++ strBytes v2) := by
  exact ⟨getWith_ok hashVersion e f m i m' inner h,
    getWith_ok v1 e f m i m' inner h,
    getWith_ok v2 e f m i m' inner h,
    hexdigest_version_ne inner v1 v2 hv⟩

/-- C3: A job with more than one output (and not already memoized) makes the
digest computation fail with the multi-output error naming the job's rule;
the error is surfaced unchanged by the public entry point, and the memo map
is left untouched — no digest is produced or memoized for such a job. -/
theorem C3_multi_output (e : Env) (f : Nat) (m : Memo) (i : Nat)
    (hmem : lookupMemo m i = none) (hout : (e.job i).output.length > 1) :
    _get_provenance_hash e f m i = (m, .error (.MultiOutputError (e.job i).ruleName))
    ∧ get_provenance_hash e f m i
        = (m, .error (.MultiOutputError (e.job i).ruleName)) := by
  have hstep : ∀ recur?, hashStep e recur? m i
      = (m, .error (.MultiOutputError (e.job i).ruleName)) := by
    intro recur?
    simp [hashStep, hmem, hout]
  have hinner : _get_provenance_hash e f m i
      = (m, .error (.MultiOutputError (e.job i).ruleName)) := by
    cases f with
    | zero => exact hstep none
    | succ f => exact hstep _
  exact ⟨hinner, getWith_error hashVersion e f m i m _ hinner⟩

/-- C4: An input supplied by an upstream dependency (one appearing in the
union of the file sets of `dependencies(job)`) is "internal": it is skipped
by the content-hashing loop, so the job's own content bytes — and hence its
whole prefix of accumulator bytes — do not depend on the file system's
contents at internal paths; such a file influences the digest only through
the upstream job's digest.  `e1` and `e2` agree on everything except
possibly the contents of files that are internal for job `i`. -/
theorem C4_internal_input_exclusion (e1 e2 : Env) (i : Nat)
    (hconda : e1.use_conda = e2.use_conda) (hsing : e1.use_singularity = e2.use_singularity)
    (hjob : e1.job = e2.job) (hdeps : e1.deps = e2.deps)
    (hfs : ∀ p, isInternal e1 i p = false → e1.fs p = e2.fs p) :
    (∀ p, isInternal e1 i p = true ↔ ∃ q ∈ e1.deps i, p ∈ q.2)
    ∧ inputBytes e1 i ((e1.job i).input) = inputBytes e2 i ((e2.job i).input)
    ∧ prefixBytes e1 i = prefixBytes e2 i := by
  have hint : ∀ p, isInternal e2 i p = isInternal e1 i p := by
    intro p
    unfold isInternal
    rw [hdeps]
  have hinp : ∀ l, inputBytes e1 i l = inputBytes e2 i l := by
    intro l
    induction l with
    | nil => rfl
    | cons g rest ih =>
        unfold inputBytes
        rw [hint g]
        by_cases hg : isInternal e1 i g = true
        · rw [if_pos hg, if_pos hg]
          exact ih
        · have hg' : isInternal e1 i g = false := by
            revert hg
            cases isInternal e1 i g <;> simp
          rw [if_neg hg, if_neg hg]
          rw [pyReadBlocks_congr e1.fs e2.fs g "b" (hfs g hg'), ih]
  refine ⟨?_, ?_, ?_⟩
  · intro p
    unfold isInternal
    rw [List.any_eq_true]
    constructor
    · rintro ⟨q, hq, hqc⟩
      exact ⟨q, hq, by simpa using hqc⟩
    · rintro ⟨q, hq, hqc⟩
      exact ⟨q, hq, by simpa using hqc⟩
  · rw [hjob]
    exact hinp _
  · have henv : ∀ j, envBytes e1 j = envBytes e2 j := by
      intro j
      unfold envBytes
      rw [hconda, hsing]
    unfold prefixBytes
    rw [hjob, hinp _, henv _]

/-- C5: On a successful (non-memoized) digest computation, the dependency
step hashes exactly the distinct upstream jobs of `dependencies(job).keys()`
(the traversal list is duplicate-free and contains precisely the keys of the
dependency mapping, one digest per entry), sorts the resulting hex digests
lexicographically, and feeds them into the accumulator in that sorted order,
which is invariant under any permutation of the collected digests. -/
theorem C5_dependency_digests (e : Env) (f : Nat) (m m' : Memo) (i : Nat) (d : String)
    (hmem : lookupMemo m i = none)
    (h : _get_provenance_hash e (f + 1) m i = (m', .ok d)) :
    ∃ pre hs m1,
      prefixBytes e i = .ok pre ∧
      hashDeps (_get_provenance_hash e f) m (depIds e i) = (m1, .ok hs) ∧
      m' = (i, finishDigest pre hs) :: m1 ∧
      d = finishDigest pre hs ∧
      hs.length = (depIds e i).length ∧
      (depIds e i).Nodup ∧
      (∀ a, a ∈ depIds e i ↔ ∃ fl, (a, fl) ∈ e.deps i) ∧
      (sortBy strLe hs).Perm hs ∧
      (sortBy strLe hs).Pairwise (fun x y => strLe x y = true) ∧
      d = hexdigest (pre ++ ((sortBy strLe hs).map strBytes).flatten) ∧
      (∀ hs2, hs2.Perm hs → sortBy strLe hs2 = sortBy strLe hs) := by
  by_cases hout : (e.job i).output.length > 1
  · rw [show _get_provenance_hash e (f + 1) m i
        = (m, .error (.MultiOutputError (e.job i).ruleName)) from by
      simp [_get_provenance_hash, hashStep, hmem, hout]] at h
    simp at h
  · cases hpre : prefixBytes e i with
    | error er =>
        rw [show _get_provenance_hash e (f + 1) m i = (m, .error er) from by
          simp [_get_provenance_hash, hashStep, hmem, hout, hpre]] at h
        simp at h
    | ok pre =>
        rcases hrun : hashDeps (_get_provenance_hash e f) m (depIds e i) with ⟨m1, r1⟩
        cases r1 with
        | error er =>
            rw [show _get_provenance_hash e (f + 1) m i = (m1, .error er) from by
              simp [_get_provenance_hash, hashStep, hmem, hout, hpre, hrun]] at h
            simp at h
        | ok hs =>
            rw [show _get_provenance_hash e (f + 1) m i
                = ((i, finishDigest pre hs) :: m1, .ok (finishDigest pre hs)) from by
              simp [_get_provenance_hash, hashStep, hmem, hout, hpre, hrun]] at h
            obtain ⟨hm', hd⟩ := Prod.mk.injEq .. |>.mp h
            have hd' : d = finishDigest pre hs := by
              injection hd with hd
              exact hd.symm
            refine ⟨pre, hs, m1, rfl, rfl, hm'.symm, hd', ?_, ?_, ?_, ?_, ?_, ?_, ?_⟩
            · exact hashDeps_ok_length _ _ _ _ _ hrun
            · exact List.nodup_dedup _
            · intro a
              unfold depIds
              rw [List.mem_dedup, List.mem_map]
              constructor
              · rintro ⟨⟨a', fl⟩, hq, rfl⟩
                exact ⟨fl, hq⟩
              · rintro ⟨fl, hq⟩
                exact ⟨(a, fl), hq, rfl⟩
            · exact sortBy_perm strLe hs
            · exact sortBy_pairwise strLe strLe_total strLe_trans hs
            · rw [hd']
              rfl
            · intro hs2 hp
              exact sortStrings_eq_of_perm hs2 hs hp

/-- C6: The environment-descriptor bytes follow the source's four-way
branch: with conda active and a conda environment present, an active
container reference is fed first and then the environment content; with
conda active but no active container reference, only the content; otherwise
an active standalone container reference alone; otherwise nothing. -/
theorem C6_environment_descriptor (e : Env) (j : Job) :
    (∀ ce, j.conda_env = some ce → e.use_conda = true →
        e.use_singularity = true → ce.singularity_img_url ≠ "" →
        envBytes e j = strBytes ce.singularity_img_url ++ strBytes ce.content)
    ∧ (∀ ce, j.conda_env = some ce → e.use_conda = true →
        ¬ (e.use_singularity = true ∧ ce.singularity_img_url ≠ "") →
        envBytes e j = strBytes ce.content)
    ∧ (¬ (e.use_conda = true ∧ j.conda_env.isSome = true) →
        e.use_singularity = true → j.singularity_img_url ≠ "" →
        envBytes e j = strBytes j.singularity_img_url)
    ∧ (¬ (e.use_conda = true ∧ j.conda_env.isSome = true) →
        ¬ (e.use_singularity = true ∧ j.singularity_img_url ≠ "") →
        envBytes e j = []) := by
  have hred1 : ∀ ce, j.conda_env = some ce → e.use_conda = true →
      envBytes e j = (if e.use_singularity && ce.singularity_img_url != "" then
        strBytes ce.singularity_img_url else []) ++ strBytes ce.content := by
    intro ce hce hc
    unfold envBytes
    rw [hce, hc]
  have hred2 : ¬ (e.use_conda = true ∧ j.conda_env.isSome = true) →
      envBytes e j = (if e.use_singularity && j.singularity_img_url != "" then
        strBytes j.singularity_img_url else []) := by
    intro hn
    cases hce : j.conda_env with
    | some ce =>
        cases hcu : e.use_conda with
        | true => exact absurd ⟨hcu, by rw [hce]; rfl⟩ hn
        | false =>
            unfold envBytes
            rw [hce, hcu]
    | none =>
        cases hcu : e.use_conda with
        | true =>
            unfold envBytes
            rw [hce, hcu]
        | false =>
            unfold envBytes
            rw [hce, hcu]
  refine ⟨?_, ?_, ?_, ?_⟩
  · intro ce hce hc hs hu
    rw [hred1 ce hce hc, if_pos]
    rw [hs]
    simp only [Bool.true_and]
    exact bne_iff_ne.mpr hu
  · intro ce hce hc hn
    rw [hred1 ce hce hc, if_neg]
    · simp
    · intro hb
      rcases Bool.and_eq_true _ _ |>.mp hb with ⟨hs', hu'⟩
      exact hn ⟨hs', bne_iff_ne.mp hu'⟩
  · intro hn hs hu
    rw [hred2 hn, if_pos]
    rw [hs]
    simp only [Bool.true_and]
    exact bne_iff_ne.mpr hu
  · intro hn1 hn2
    rw [hred2 hn1, if_neg]
    intro hb
    rcases Bool.and_eq_true _ _ |>.mp hb with ⟨hs', hu'⟩
    exact hn2 ⟨hs', bne_iff_ne.mp hu'⟩

theorem paramsGo_ok (l : List (String × PyObj)) (h : ∀ p ∈ l, (dumps p.2).isSome = true) :
    paramsGo l
      = .ok ((l.map (fun p => strBytes p.1 ++ strBytes ((dumps p.2).getD ""))).flatten) := by
  induction l with
  | nil => rfl
  | cons p rest ih =>
      obtain ⟨k, v⟩ := p
      have hv := h (k, v) (by simp)
      rcases hsome : dumps v with _ | s
      · rw [hsome] at hv
        cases hv
      · rw [paramsGo, hsome, ih (fun q hq => h q (List.mem_cons_of_mem _ hq))]
        simp [hsome]

theorem paramsGo_err (l : List (String × PyObj)) (p : String × PyObj) (hp : p ∈ l)
    (hn : dumps p.2 = none) : paramsGo l = .error .UnhashableParameterError := by
  induction l with
  | nil => cases hp
  | cons q rest ih =>
      obtain ⟨k, v⟩ := q
      rcases List.mem_cons.mp hp with rfl | hp'
      · rw [paramsGo]
        rw [show dumps (k, v).2 = none from hn]
      · rw [paramsGo]
        cases hv : dumps v with
        | none => rfl
        | some s => rw [ih hp']

/-- C7: The parameter step visits the entries of `job.params` sorted by key
in ascending lexicographic order, feeding for each the key bytes and then
the canonical serialization of the value (a deterministic textual encoding
whose object keys are sorted, hence independent of the mapping's iteration
order); a value that `json.dumps` cannot serialize aborts the computation
with the unhashable-parameter error, which the public entry point surfaces
to the caller. -/
theorem C7_parameters (ps : List (String × PyObj)) (e : Env) (f : Nat) (m : Memo) (i : Nat) :
    ((sortBy keyLe ps).Perm ps
      ∧ (sortBy keyLe ps).Pairwise (fun p q => strLe p.1 q.1 = true))
    ∧ ((∀ p ∈ ps, (dumps p.2).isSome = true) →
        paramsBytes ps = .ok (((sortBy keyLe ps).map
          (fun p => strBytes p.1 ++ strBytes ((dumps p.2).getD ""))).flatten))
    ∧ (∀ p ∈ ps, dumps p.2 = none →
        paramsBytes ps = .error .UnhashableParameterError)
    ∧ (∀ fs1 fs2 : List (String × PyObj), fs1.Perm fs2 → (fs1.map Prod.fst).Nodup →
        dumps (.dict fs1) = dumps (.dict fs2))
    ∧ (lookupMemo m i = none → ¬ (e.job i).output.length > 1 →
        (∃ p ∈ (e.job i).params, dumps p.2 = none) →
        (get_provenance_hash e (f + 1) m i).2 = .error .UnhashableParameterError) := by
  refine ⟨⟨sortBy_perm keyLe ps, ?_⟩, ?_, ?_, ?_, ?_⟩
  · exact sortBy_pairwise keyLe keyLe_total (fun p q r => keyLe_trans p q r) ps
  · intro h
    unfold paramsBytes
    exact paramsGo_ok (sortBy keyLe ps)
      (fun p hp => h p ((sortBy_perm keyLe ps).mem_iff.mp hp))
  · intro p hp hn
    unfold paramsBytes
    exact paramsGo_err (sortBy keyLe ps) p ((sortBy_perm keyLe ps).mem_iff.mpr hp) hn
  · exact dumps_dict_perm
  · rintro hmem hout ⟨p, hp, hn⟩
    have hpb : paramsBytes (e.job i).params = .error .UnhashableParameterError := by
      unfold paramsBytes
      exact paramsGo_err _ p ((sortBy_perm keyLe _).mem_iff.mpr hp) hn
    have hpre : prefixBytes e i = .error .UnhashableParameterError := by
      unfold prefixBytes
      rw [hpb]
    have hinner : _get_provenance_hash e (f + 1) m i
        = (m, .error .UnhashableParameterError) := by
      simp [_get_provenance_hash, hashStep, hmem, hout, hpre]
    rw [show get_provenance_hash e (f + 1) m i = (m, .error .UnhashableParameterError) from
      getWith_error hashVersion e (f + 1) m i m _ hinner]

instance : DecidableEq (Except HashErr String)
  | .ok a, .ok b =>
      if h : a = b then .isTrue (h ▸ rfl) else .isFalse (fun hc => h (Except.ok.inj hc))
  | .error a, .error b =>
      if h : a = b then .isTrue (h ▸ rfl) else .isFalse (fun hc => h (Except.error.inj hc))
  | .ok _, .error _ => .isFalse (fun hc => Except.noConfusion hc)
  | .error _, .ok _ => .isFalse (fun hc => Except.noConfusion hc)

/-- A job with a single output, a single external input `data.txt`, and an
inline shell command; the file system holds `data.txt` with two bytes of
content. -/
def exJobC8 : Job :=
  { ruleName := "r", output := ["out.txt"], input := ["data.txt"], params := [],
    is_shell := true, is_script := false, is_wrapper := false, shellcmd := "echo hi",
    scriptSource := "", wrapperSource := "", conda_env := none, singularity_img_url := "" }

def exEnvC8 : Env :=
  { use_conda := false, use_singularity := false,
    job := fun _ => exJobC8,
    deps := fun _ => [],
    fs := fun p => if p = "data.txt" then some [104, 105] else none }

/-- The same environment with `data.txt` absent. -/
def exEnvC8b : Env :=
  { use_conda := false, use_singularity := false,
    job := fun _ => exJobC8,
    deps := fun _ => [],
    fs := fun _ => none }

/-- C8 (code bug): the source opens external inputs with `open(f, "b")`; the
mode string `"b"` has no read/write/append/create flag, so Python's `open`
raises `ValueError` before any byte is read.  Hashing a job with an external
input therefore always fails with that error — whether the file exists (with
content, first runs) or is missing (last conjunct) — instead of feeding the
file's bytes in 4096-byte blocks and reserving failure for unreadable files
as the claim (and the source's own comment) describe. -/
theorem C8_open_mode_bug :
    pyOpenModeOk "b" = false
    ∧ exEnvC8.fs "data.txt" = some [104, 105]
    ∧ _get_provenance_hash exEnvC8 5 [] 0 = ([], .error (.InvalidOpenMode "b"))
    ∧ get_provenance_hash exEnvC8 5 [] 0 = ([], .error (.InvalidOpenMode "b"))
    ∧ _get_provenance_hash exEnvC8b 5 [] 0 = ([], .error (.InvalidOpenMode "b")) := by
  exact ⟨by decide, by decide, by decide, by decide, by decide⟩

/-- C9: The memo map is a monotone fill keyed by job: a memoized job is
answered immediately with the stored digest and an unchanged map (first
conjunct); every run only extends the map, never evicting or overwriting an
entry (third conjunct), and keeps all entries canonical (second conjunct); a
first successful computation of a non-memoized job writes its digest
(fourth conjunct); and a run on a warm engine — any good memo, e.g. one
left by earlier computations of ancestors — returns the same digest as a
fresh engine with an empty map (fifth conjunct). -/
theorem C9_memoization (e : Env) (m : Memo) (i : Nat) (f f1 f2 : Nat) (d0 : String)
    (hg : GoodMemo e m) :
    (lookupMemo m i = some d0 → _get_provenance_hash e f m i = (m, .ok d0))
    ∧ GoodMemo e (_get_provenance_hash e f m i).1
    ∧ MemoExtends m (_get_provenance_hash e f m i).1
    ∧ (∀ d, lookupMemo m i = none → (_get_provenance_hash e f m i).2 = .ok d →
        lookupMemo (_get_provenance_hash e f m i).1 i = some d)
    ∧ (∀ d d', (_get_provenance_hash e f1 [] i).2 = .ok d →
        (_get_provenance_hash e f2 m i).2 = .ok d' → d' = d) := by
  obtain ⟨hgood, hext, hok⟩ := get_sound e f m i hg
  refine ⟨?_, hgood, hext, ?_, ?_⟩
  · intro h
    exact get_memo_hit e f m i d0 h
  · intro d hmem h
    exact (hok d h).2
  · intro d d' h1 h2
    obtain ⟨_, _, hok1⟩ := get_sound e f1 [] i (goodMemo_nil e)
    obtain ⟨_, _, hok2⟩ := get_sound e f2 m i hg
    exact canon_unique e i d' (hok2 d' h2).1 d (hok1 d h1).1

/-- C10: The public entry point returns exactly the memo map of the inner
computation — it never writes the versioned outer digest into the map — so
the map's contents are independent of the version tag (second conjunct) and
remain canonical unversioned digests (fourth conjunct); and even for a fully
memoized job the outer digest-over-(inner digest, version tag) step is
recomputed on the call (third conjunct). -/
theorem C10_memo_unversioned (e : Env) (f : Nat) (m : Memo) (i : Nat) (v1 v2 : String) :
    (getProvenanceHashWith v1 e f m i).1 = (_get_provenance_hash e f m i).1
    ∧ (getProvenanceHashWith v1 e f m i).1 = (getProvenanceHashWith v2 e f m i).1
    ∧ (∀ d, lookupMemo m i = some d →
        getProvenanceHashWith v1 e f m i
          = (m, .ok (hexdigest (strBytes d ++ strBytes v1))))
    ∧ (GoodMemo e m → GoodMemo e (get_provenance_hash e f m i).1) := by
  refine ⟨getWith_fst v1 e f m i, ?_, ?_, ?_⟩
  · rw [getWith_fst v1 e f m i, getWith_fst v2 e f m i]
  · intro d h
    exact getWith_ok v1 e f m i m d (get_memo_hit e f m i d h)
  · intro hg
    have h1 : (get_provenance_hash e f m i).1 = (_get_provenance_hash e f m i).1 :=
      getWith_fst hashVersion e f m i
    rw [h1]
    exact (get_sound e f m i hg).1

/-! ## Concrete environments for the witnesses -/

def exJobLeaf : Job :=
  { ruleName := "leaf", output := ["a.txt"], input := [], params := [],
    is_shell := true, is_script := false, is_wrapper := false, shellcmd := "x",
    scriptSource := "", wrapperSource := "", conda_env := none, singularity_img_url := "" }

def exEnvLeaf : Env :=
  { use_conda := false, use_singularity := false, job := fun _ => exJobLeaf,
    deps := fun _ => [], fs := fun _ => none }

def exJobRoot1 : Job :=
  { exJobLeaf with
    ruleName := "root"
    shellcmd := "z"
    params := [("a", .int 1), ("b", .str "y")] }

def exJobRoot2 : Job :=
  { exJobRoot1 with params := [("b", .str "y"), ("a", .int 1)] }

def exJobMid : Job := { exJobLeaf with ruleName := "mid", shellcmd := "w" }

def exEnvC1a : Env :=
  { use_conda := false, use_singularity := false,
    job := fun i => if i = 0 then exJobRoot1 else if i = 1 then exJobLeaf else exJobMid,
    deps := fun i => if i = 0 then [(1, ["a.txt"]), (2, ["b.txt"])] else [],
    fs := fun _ => none }

def exEnvC1b : Env :=
  { use_conda := false, use_singularity := false,
    job := fun i => if i = 0 then exJobRoot2 else if i = 1 then exJobLeaf else exJobMid,
    deps := fun i => if i = 0 then [(2, ["b.txt"]), (1, ["a.txt"])] else [],
    fs := fun _ => none }

theorem exEnvC1_reorder : EnvReorder exEnvC1a exEnvC1b := by
  refine ⟨rfl, rfl, fun p => rfl, ?_, ?_⟩
  · intro i
    by_cases h0 : i = 0
    · subst h0
      refine ⟨rfl, ?_, ?_⟩
      · show [("a", PyObj.int 1), ("b", PyObj.str "y")].Perm
          [("b", PyObj.str "y"), ("a", PyObj.int 1)]
        exact List.Perm.swap _ _ []
      · decide
    · have hj : exEnvC1b.job i = exEnvC1a.job i := by
        simp [exEnvC1a, exEnvC1b, h0]
      rw [hj]
      refine ⟨rfl, List.Perm.refl _, ?_⟩
      by_cases h1 : i = 1 <;>
        simp [exEnvC1a, h0, h1, exJobLeaf, exJobMid]
  · intro i
    by_cases h0 : i = 0
    · subst h0
      show [(1, ["a.txt"]), (2, ["b.txt"])].Perm [(2, ["b.txt"]), (1, ["a.txt"])]
      exact List.Perm.swap _ _ []
    · have hd : exEnvC1a.deps i = exEnvC1b.deps i := by
        simp [exEnvC1a, exEnvC1b, h0]
      rw [hd]

theorem C1_determinism_witness :
    (get_provenance_hash exEnvC1a 5 [] 0).2 = (get_provenance_hash exEnvC1b 5 [] 0).2 := by
  have hok1 : (get_provenance_hash exEnvC1a 5 [] 0).2.isOk = true := by decide
  have hok2 : (get_provenance_hash exEnvC1b 5 [] 0).2.isOk = true := by decide
  rcases hev1 : get_provenance_hash exEnvC1a 5 [] 0 with ⟨m1, r1⟩
  rcases hev2 : get_provenance_hash exEnvC1b 5 [] 0 with ⟨m2, r2⟩
  rw [hev1] at hok1
  rw [hev2] at hok2
  cases r1 with
  | error er => simp [Except.isOk, Except.toBool] at hok1
  | ok D1 =>
      cases r2 with
      | error er => simp [Except.isOk, Except.toBool] at hok2
      | ok D2 =>
          have := (C1_determinism exEnvC1a exEnvC1b 5 5 5 0 m1 m2 D1 D2
            exEnvC1_reorder hev1 hev2).1
          rw [this]

theorem C2_versioning_witness :
    (getProvenanceHashWith "0.1" exEnvLeaf 1 [] 0).2
      ≠ (getProvenanceHashWith "0.2" exEnvLeaf 1 [] 0).2 := by
  have hok : (_get_provenance_hash exEnvLeaf 1 [] 0).2.isOk = true := by decide
  rcases hev : _get_provenance_hash exEnvLeaf 1 [] 0 with ⟨m', r⟩
  rw [hev] at hok
  cases r with
  | error er => simp [Except.isOk, Except.toBool] at hok
  | ok inner =>
      obtain ⟨_, hA, hB, hne⟩ :=
        C2_versioning exEnvLeaf 1 [] m' 0 inner "0.1" "0.2" (by decide) hev
      rw [hA, hB]
      intro hc
      exact hne (by simpa using hc)

def exJobMulti : Job := { exJobLeaf with ruleName := "multi", output := ["a", "b"] }

def exEnvC3 : Env := { exEnvLeaf with job := fun _ => exJobMulti }

theorem C3_multi_output_witness :
    _get_provenance_hash exEnvC3 3 [] 0 = ([], .error (.MultiOutputError "multi"))
    ∧ get_provenance_hash exEnvC3 3 [] 0 = ([], .error (.MultiOutputError "multi")) :=
  C3_multi_output exEnvC3 3 [] 0 (by decide) (by decide)

def exJobC4 : Job := { exJobLeaf with ruleName := "c4", input := ["int.txt", "ext.txt"] }

def exEnvC4a : Env :=
  { use_conda := false, use_singularity := false,
    job := fun i => if i = 0 then exJobC4 else exJobLeaf,
    deps := fun i => if i = 0 then [(1, ["int.txt"])] else [],
    fs := fun p => if p = "int.txt" then some [1] else
      if p = "ext.txt" then some [3] else none }

def exEnvC4b : Env :=
  { exEnvC4a with fs := fun p => if p = "int.txt" then some [2] else
      if p = "ext.txt" then some [3] else none }

theorem C4_internal_input_exclusion_witness :
    inputBytes exEnvC4a 0 ((exEnvC4a.job 0).input)
      = inputBytes exEnvC4b 0 ((exEnvC4b.job 0).input)
    ∧ prefixBytes exEnvC4a 0 = prefixBytes exEnvC4b 0 := by
  have hfs : ∀ p, isInternal exEnvC4a 0 p = false → exEnvC4a.fs p = exEnvC4b.fs p := by
    intro p hp
    by_cases h1 : p = "int.txt"
    · subst h1
      have : isInternal exEnvC4a 0 "int.txt" = true := by decide
      rw [this] at hp
      cases hp
    · show exEnvC4a.fs p = exEnvC4b.fs p
      simp [exEnvC4a, exEnvC4b, h1]
  have h := C4_internal_input_exclusion exEnvC4a exEnvC4b 0 rfl rfl rfl rfl hfs
  exact ⟨h.2.1, h.2.2⟩

def exEnvC5 : Env :=
  { use_conda := false, use_singularity := false,
    job := fun i => if i = 0 then exJobMid else exJobLeaf,
    deps := fun i => if i = 0 then [(1, ["a.txt"]), (2, ["a2.txt"])] else [],
    fs := fun _ => none }

theorem C5_dependency_digests_witness :
    (depIds exEnvC5 0).Nodup ∧ (_get_provenance_hash exEnvC5 4 [] 0).1 ≠ [] := by
  have hok : (_get_provenance_hash exEnvC5 4 [] 0).2.isOk = true := by decide
  rcases hev : _get_provenance_hash exEnvC5 4 [] 0 with ⟨m', r⟩
  rw [hev] at hok
  cases r with
  | error er => simp [Except.isOk, Except.toBool] at hok
  | ok d =>
      obtain ⟨pre, hs, m1, _, _, hm', _, _, hnd, _⟩ :=
        C5_dependency_digests exEnvC5 3 [] m' 0 d (by decide) hev
      refine ⟨hnd, ?_⟩
      show m' ≠ []
      rw [hm']
      simp

def exCondaEnvA : CondaEnv := { content := "deps: []", singularity_img_url := "docker://img" }

def exJobC6a : Job := { exJobLeaf with conda_env := some exCondaEnvA }

def exEnvC6a : Env :=
  { exEnvLeaf with use_conda := true, use_singularity := true, job := fun _ => exJobC6a }

def exEnvC6b : Env :=
  { exEnvLeaf with use_conda := true, use_singularity := false, job := fun _ => exJobC6a }

def exJobC6c : Job := { exJobLeaf with singularity_img_url := "docker://img2" }

def exEnvC6c : Env :=
  { exEnvLeaf with use_conda := false, use_singularity := true, job := fun _ => exJobC6c }

theorem C6_environment_descriptor_witness :
    envBytes exEnvC6a exJobC6a
      = strBytes exCondaEnvA.singularity_img_url ++ strBytes exCondaEnvA.content
    ∧ envBytes exEnvC6b exJobC6a = strBytes exCondaEnvA.content
    ∧ envBytes exEnvC6c exJobC6c = strBytes exJobC6c.singularity_img_url
    ∧ envBytes exEnvLeaf exJobLeaf = [] := by
  refine ⟨?_, ?_, ?_, ?_⟩
  · exact (C6_environment_descriptor exEnvC6a exJobC6a).1 exCondaEnvA rfl rfl rfl (by decide)
  · exact (C6_environment_descriptor exEnvC6b exJobC6a).2.1 exCondaEnvA rfl rfl
      (by rintro ⟨h, _⟩; exact absurd h (by decide))
  · exact (C6_environment_descriptor exEnvC6c exJobC6c).2.2.1
      (by rintro ⟨h, _⟩; exact absurd h (by decide)) rfl (by decide)
  · exact (C6_environment_descriptor exEnvLeaf exJobLeaf).2.2.2
      (by rintro ⟨h, _⟩; exact absurd h (by decide))
      (by rintro ⟨h, _⟩; exact absurd h (by decide))

def exPsOk : List (String × PyObj) := [("b", .int 2), ("a", .str "x")]

def exJobC7 : Job := { exJobLeaf with params := [("p", .unserializable)] }

def exEnvC7 : Env := { exEnvLeaf with job := fun _ => exJobC7 }

theorem C7_parameters_witness :
    (sortBy keyLe exPsOk).Perm exPsOk
    ∧ paramsBytes [("p", PyObj.unserializable)] = .error .UnhashableParameterError
    ∧ (get_provenance_hash exEnvC7 1 [] 0).2 = .error .UnhashableParameterError := by
  refine ⟨(C7_parameters exPsOk exEnvC7 0 [] 0).1.1, ?_, ?_⟩
  · exact (C7_parameters [("p", PyObj.unserializable)] exEnvC7 0 [] 0).2.2.1
      ("p", PyObj.unserializable) (by simp) rfl
  · exact (C7_parameters (exEnvC7.job 0).params exEnvC7 0 [] 0).2.2.2.2 rfl (by decide)
      ⟨("p", PyObj.unserializable), by simp [exEnvC7, exJobC7], rfl⟩

def exEnvC9 : Env :=
  { use_conda := false, use_singularity := false,
    job := fun i => if i = 3 then { exJobLeaf with ruleName := "D", shellcmd := "d" }
      else if i = 0 then { exJobLeaf with ruleName := "A", shellcmd := "a" }
      else exJobLeaf,
    deps := fun i => if i = 3 then [(1, ["x"]), (2, ["y"])]
      else if i = 1 then [(0, ["z"])] else if i = 2 then [(0, ["z"])] else [],
    fs := fun _ => none }

theorem C9_memoization_witness :
    (_get_provenance_hash exEnvC9 9 [] 3).2
      = (_get_provenance_hash exEnvC9 9 ((_get_provenance_hash exEnvC9 9 [] 1).1) 3).2 := by
  have hgw : GoodMemo exEnvC9 ((_get_provenance_hash exEnvC9 9 [] 1).1) :=
    (C9_memoization exEnvC9 [] 1 9 0 0 "" (goodMemo_nil exEnvC9)).2.1
  have hok1 : (_get_provenance_hash exEnvC9 9 [] 3).2.isOk = true := by decide
  have hok2 : (_get_provenance_hash exEnvC9 9
      ((_get_provenance_hash exEnvC9 9 [] 1).1) 3).2.isOk = true := by decide
  cases hv1 : (_get_provenance_hash exEnvC9 9 [] 3).2 with
  | error er =>
      rw [hv1] at hok1
      simp [Except.isOk, Except.toBool] at hok1
  | ok d =>
      cases hv2 : (_get_provenance_hash exEnvC9 9
          ((_get_provenance_hash exEnvC9 9 [] 1).1) 3).2 with
      | error er =>
          rw [hv2] at hok2
          simp [Except.isOk, Except.toBool] at hok2
      | ok d' =>
          have := (C9_memoization exEnvC9 ((_get_provenance_hash exEnvC9 9 [] 1).1)
            3 9 9 9 "" hgw).2.2.2.2 d d' hv1 hv2
          rw [this]

theorem C10_memo_unversioned_witness :
    getProvenanceHashWith "0.9" exEnvLeaf 2 [(0, "ab")] 0
      = ([(0, "ab")], .ok (hexdigest (strBytes "ab" ++ strBytes "0.9"))) :=
  (C10_memo_unversioned exEnvLeaf 2 [(0, "ab")] 0 "0.9" "0.9").2.2.1 "ab" (by decide)
